import Mathlib

/-!
Verification of the dawft watch-face tool's image codec and container logic.

Shallow embedding of the C sources (bmp.c, dawft.c, dawft.h, strutil.c):
byte buffers are `List Nat` of byte values, machine integers are `Nat` with
explicit `% 2^w` where C overflow/truncation matters, and fallible functions
return `Except` with the C error codes.  Out-of-range buffer reads (which the
C performs without trapping) are modelled as reading 0.
-/

namespace Dawft

/-! ## Byte primitives (dawft.h macros, strutil set_u16) -/

/-- Read one byte of a buffer; C reads past the end are modelled as 0. -/
def getByte (src : List Nat) (i : Nat) : Nat := src.getD i 0

/-- `get_u16` macro: little-endian 16-bit load. -/
def get_u16 (src : List Nat) (i : Nat) : Nat :=
  getByte src i + 256 * getByte src (i + 1)

/-- `get_u32` macro: little-endian 32-bit load. -/
def get_u32 (src : List Nat) (i : Nat) : Nat :=
  getByte src i + 256 * getByte src (i + 1) + 65536 * getByte src (i + 2) +
    16777216 * getByte src (i + 3)

/-- `swap_bo_u16` macro: `((x & 0xFF) << 8) | ((x & 0xFF00) >> 8)`. -/
def swap_bo_u16 (x : Nat) : Nat :=
  ((x &&& 0xFF) <<< 8) ||| ((x &&& 0xFF00) >>> 8)

/-- `set_u16`: store a u16 little-endian (`p[0] = v & 0xFF; p[1] = v >> 8`). -/
def u16Bytes (v : Nat) : List Nat := [v % 256, v / 256 % 256]

/-! ## Img (bmp.h struct _Img) -/

/-- `struct _Img`: w/h in pixels, compression (0 = NONE, 1 = RLE_LINE),
size of `data` in bytes, pixel data (2 bytes per pixel when uncompressed). -/
structure Img where
  w : Nat
  h : Nat
  compression : Nat
  size : Nat
  data : List Nat
deriving Repr, DecidableEq

/-! ## compressImg (bmp.c): RLE_LINE encoder -/

/-- The two data bytes of pixel `x` of row `y`, as `compressImg` reads them
(`img->data[y*img->w*2 + x*2]` and the following byte). -/
def pixelPair (img : Img) (y x : Nat) : Nat × Nat :=
  (getByte img.data (y * img.w * 2 + x * 2),
   getByte img.data (y * img.w * 2 + x * 2 + 1))

/-- Row `y` of the image as the list of its pixel byte-pairs. -/
def rowPixels (img : Img) (y : Nat) : List (Nat × Nat) :=
  (List.range img.w).map (pixelPair img y)

/-- The per-row scanning loop of `compressImg`, carrying `prev` and
`runLength`.  On a pixel change it emits `(prev, runLength)` and restarts at
run length 1; when the run length reaches 255 it flushes `(prev, 255)` and
resets the run length to 0 (so a following pixel change emits a count-0
record); at end of row a pending run is flushed only when nonempty. -/
def encodeRowLoop : List (Nat × Nat) → Nat × Nat → Nat → List (Nat × Nat × Nat)
  | [], prev, runLength =>
    if 0 < runLength then [(prev.1, prev.2, runLength)] else []
  | curr :: rest, prev, runLength =>
    if curr ≠ prev then
      (prev.1, prev.2, runLength) :: encodeRowLoop rest curr 1
    else if runLength + 1 = 255 then
      (prev.1, prev.2, 255) :: encodeRowLoop rest curr 0
    else
      encodeRowLoop rest curr (runLength + 1)

/-- Run records produced by `compressImg` for one row: the `x == 0` iteration
just initialises `prev` and sets the run length to 1. -/
def encodeRow : List (Nat × Nat) → List (Nat × Nat × Nat)
  | [] => []
  | curr :: rest => encodeRowLoop rest curr 1

/-- Serialization of one run record: `buf[o] = prev0, buf[o+1] = prev1,
buf[o+2] = runLength`. -/
def recBytes (r : Nat × Nat × Nat) : List Nat := [r.1, r.2.1, r.2.2]

/-- Run records of row `y` of `img`. -/
def rowRecords (img : Img) (y : Nat) : List (Nat × Nat × Nat) :=
  encodeRow (rowPixels img y)

/-- Encoded run bytes of row `y`. -/
def rowBytes (img : Img) (y : Nat) : List Nat :=
  (rowRecords img y).flatMap recBytes

/-- The running `offset` value of `compressImg` as it stands after finishing
row `y`: 2 id bytes + `2*h` table bytes + all run bytes of rows `0..y`. -/
def rowEndOffset (img : Img) (y : Nat) : Nat :=
  2 + 2 * img.h + ((List.range (y + 1)).map (fun i => (rowBytes img i).length)).sum

/-- The row-end offset table written at bytes `2 .. 2+2*h-1` of the blob. -/
def offsetTable (img : Img) : List Nat :=
  (List.range img.h).flatMap (fun y => u16Bytes (rowEndOffset img y))

/-- All run data of the blob, rows in order. -/
def runData (img : Img) : List Nat :=
  (List.range img.h).flatMap (rowBytes img)

/-- The complete RLE_LINE blob `compressImg` builds in `buf`:
identifier `0x08 0x21`, row-end offset table, run data. -/
def blobBytes (img : Img) : List Nat :=
  0x08 :: 0x21 :: (offsetTable img ++ runData img)

/-- `minSize` computed by `compressImg`: header plus minimum RLE units. -/
def minSizeRLE (img : Img) : Nat :=
  2 + img.h * 2 + (img.w + 255) / 255 * 3 * img.h

/-- `compressImg`: returns the C result code together with the resulting
image.  Code 100: image already compressed (NULL not modelled); 101: image
too large for RLE_LINE; 0 with the image unchanged when a row-end offset
would not fit in 16 bits (the C checks the running offset after each row,
equivalently: some row's end offset exceeds 65535) or when the encoding is
not smaller than the raw data; otherwise 0 with the pixel data replaced by
the RLE_LINE blob (`RLE_LINE = 1`). -/
def compressImg (img : Img) : Nat × Img :=
  if img.compression ≠ 0 then (100, img)
  else if 65535 < minSizeRLE img then (101, img)
  else if (List.range img.h).any (fun y => 65535 < rowEndOffset img y) then (0, img)
  else if img.size ≤ (blobBytes img).length then (0, img)
  else (0, ⟨img.w, img.h, 1, (blobBytes img).length, blobBytes img⟩)

/-! ## dumpBMP16 (bmp.c): BMP dump with RLE_LINE / RLE_BASIC / raw branches -/

/-- `setBMPHeaderV4` row size for 16 bpp: `((2*width) + 3) & 0xFFFFFFFC`,
computed in u32 arithmetic. -/
def bmpRowSize4 (w : Nat) : Nat :=
  ((2 * w % 4294967296 + 3) % 4294967296) &&& 0xFFFFFFFC

/-- `imageDataSize` field of the V4 header for 16 bpp (u32). -/
def imageDataSize16 (w h : Nat) : Nat := bmpRowSize4 w * h % 4294967296

/-- `destRowSize = bmpHeader.imageDataSize / imgHeight` in `dumpBMP16`. -/
def destRowSize (w h : Nat) : Nat := imageDataSize16 w h / h

/-- One output row as written to the file: the first `n` bytes of the
8192-byte row buffer, which was zeroed over `n` bytes and then overwritten
from index 0 with the decoded bytes. -/
def padRow (n : Nat) (bs : List Nat) : List Nat :=
  bs.take n ++ List.replicate (n - bs.length) 0

/-- Inner fill loop of the RLE_LINE branch: write `count` copies of the
two-byte pixel, but `break` before any write at `bufIdx + 1 >= 8192`
(`sizeof(buf)`). -/
def runFill (p0 p1 : Nat) : Nat → Nat → List Nat
  | 0, _ => []
  | j + 1, bufIdx =>
    if 8192 ≤ bufIdx + 1 then [] else p0 :: p1 :: runFill p0 p1 j (bufIdx + 2)

/-- RLE_LINE per-row record loop, structurally fuelled (the loop advances
`srcIdx` by 3 while `srcIdx < rowEnd`, so `rowEnd - srcIdx` steps always
suffice; see `rleRow_eq` for the loop equation). -/
def rleRowF (src : List Nat) (rowEnd : Nat) : Nat → Nat → Nat → List Nat × Nat
  | 0, srcIdx, _ => ([], srcIdx)
  | fuel + 1, srcIdx, bufIdx =>
    if srcIdx < rowEnd then
      let filled := runFill (getByte src (srcIdx + 1)) (getByte src srcIdx)
        (getByte src (srcIdx + 2)) bufIdx
      let r := rleRowF src rowEnd fuel (srcIdx + 3) (bufIdx + filled.length)
      (filled ++ r.1, r.2)
    else ([], srcIdx)

/-- RLE_LINE per-row record loop: consume 3-byte records while
`srcIdx < rowEnd`; the decoder reads `pixel0 = src[srcIdx+1]`,
`pixel1 = src[srcIdx]`, `count = src[srcIdx+2]` and writes `pixel0, pixel1`
pairs.  Returns the bytes written to the row buffer and the final `srcIdx`. -/
def rleRow (src : List Nat) (rowEnd : Nat) (srcIdx bufIdx : Nat) : List Nat × Nat :=
  rleRowF src rowEnd (rowEnd - srcIdx) srcIdx bufIdx

theorem rleRowF_fuel (src : List Nat) (rowEnd : Nat) :
    ∀ f1 f2 srcIdx bufIdx, rowEnd - srcIdx ≤ f1 → rowEnd - srcIdx ≤ f2 →
    rleRowF src rowEnd f1 srcIdx bufIdx = rleRowF src rowEnd f2 srcIdx bufIdx := by
  intro f1
  induction f1 with
  | zero =>
    intro f2 srcIdx bufIdx h1 h2
    cases f2 with
    | zero => rfl
    | succ f2 => rw [rleRowF, rleRowF, if_neg (by omega)]
  | succ f1 ih =>
    intro f2 srcIdx bufIdx h1 h2
    cases f2 with
    | zero => rw [rleRowF, rleRowF, if_neg (by omega)]
    | succ f2 =>
      rw [rleRowF, rleRowF]
      by_cases hlt : srcIdx < rowEnd
      · rw [if_pos hlt, if_pos hlt]
        have hrec := ih f2 (srcIdx + 3)
          (bufIdx + (runFill (getByte src (srcIdx + 1)) (getByte src srcIdx)
            (getByte src (srcIdx + 2)) bufIdx).length) (by omega) (by omega)
        simp only [hrec]
      · rw [if_neg hlt, if_neg hlt]

/-- The C loop equation for `rleRow`. -/
theorem rleRow_eq (src : List Nat) (rowEnd srcIdx bufIdx : Nat) :
    rleRow src rowEnd srcIdx bufIdx =
      if srcIdx < rowEnd then
        let filled := runFill (getByte src (srcIdx + 1)) (getByte src srcIdx)
          (getByte src (srcIdx + 2)) bufIdx
        let r := rleRow src rowEnd (srcIdx + 3) (bufIdx + filled.length)
        (filled ++ r.1, r.2)
      else ([], srcIdx) := by
  rw [rleRow]
  by_cases hlt : srcIdx < rowEnd
  · obtain ⟨f, hf⟩ : ∃ f, rowEnd - srcIdx = f + 1 := ⟨rowEnd - srcIdx - 1, by omega⟩
    rw [hf, rleRowF, if_pos hlt, if_pos hlt]
    simp only [rleRow]
    have hrec := rleRowF_fuel src rowEnd f (rowEnd - (srcIdx + 3)) (srcIdx + 3)
      (bufIdx + (runFill (getByte src (srcIdx + 1)) (getByte src srcIdx)
        (getByte src (srcIdx + 2)) bufIdx).length) (by omega) (by omega)
    simp only [hrec]
  · have : rowEnd - srcIdx = 0 := by omega
    rw [this, rleRowF, if_neg hlt]

/-- RLE_LINE row loop: for each row `y` read its end offset from the table at
byte `2 + y*2` and decode records up to it; each output row is `drs` bytes. -/
def rleLineRows (src : List Nat) (drs : Nat) : Nat → Nat → Nat → List (List Nat)
  | _, _, 0 => []
  | y, srcIdx, rows + 1 =>
    let d := rleRow src (get_u16 src (2 + y * 2)) srcIdx 0
    padRow drs d.1 :: rleLineRows src drs (y + 1) d.2 rows

/-- RLE_LINE branch of `dumpBMP16`: `srcIdx` starts after the id and the
`2*h`-byte offset table; `dataEnd` is the last row's end offset minus one,
computed in `size_t` (so end offset 0 wraps to `2^64 - 1`); error 101 when
`srcIdx > srcDataSize || dataEnd > srcDataSize`. -/
def decodeRLELine (src : List Nat) (h drs : Nat) : Except Nat (List (List Nat)) :=
  let srcIdx := 2 * h + 2
  let lastEnd := get_u16 src (2 + (h - 1) * 2)
  let dataEnd := if lastEnd = 0 then 18446744073709551615 else lastEnd - 1
  if src.length < srcIdx ∨ src.length < dataEnd then .error 101
  else .ok (rleLineRows src drs 0 srcIdx h)

/-- `count` copies of the byte pair `pixel0, pixel1`. -/
def expandPix (p0 p1 n : Nat) : List Nat :=
  (List.replicate n (p0, p1)).flatMap (fun p => [p.1, p.2])

/-- Decoder state carried across rows by the RLE_BASIC branch:
`srcIdx`, the current `pixel0`/`pixel1` and the current `count`. -/
structure BasicSt where
  srcIdx : Nat
  p0 : Nat
  p1 : Nat
  cnt : Nat
deriving Repr, DecidableEq

/-- In-row state of the RLE_BASIC record loop: the fields of `BasicSt` plus
`i` (pixels consumed from the current record) and `pixelCount`. -/
structure RowSt where
  srcIdx : Nat
  p0 : Nat
  p1 : Nat
  cnt : Nat
  i : Nat
  pixelCount : Nat
deriving Repr, DecidableEq

/-- RLE_BASIC record loop, structurally fuelled (each iteration requires
`srcIdx + 3 <= srcDataSize` and advances `srcIdx` by 3, so
`src.length + 1 - srcIdx` steps always suffice; see `basicRowLoop_eq`). -/
def basicRowLoopF (src : List Nat) (w : Nat) : Nat → RowSt → Except Nat (List Nat × RowSt)
  | 0, st => .ok ([], st)
  | fuel + 1, st =>
    if st.pixelCount < w then
      if st.srcIdx + 3 ≤ src.length then
        let cnt := getByte src (st.srcIdx + 2)
        let p0 := getByte src (st.srcIdx + 1)
        let p1 := getByte src st.srcIdx
        let i := min cnt (w - st.pixelCount)
        match basicRowLoopF src w fuel ⟨st.srcIdx + 3, p0, p1, cnt, i, st.pixelCount + i⟩ with
        | .error e => .error e
        | .ok (bs, fin) => .ok (expandPix p0 p1 i ++ bs, fin)
      else .error 102
    else .ok ([], st)

/-- RLE_BASIC record loop (`while (pixelCount < imgWidth)`): check
`srcIdx+2 >= srcDataSize` (error 102), read a 3-byte record, fill
`min count (imgWidth - pixelCount)` pixels, advance `srcIdx` by 3. -/
def basicRowLoop (src : List Nat) (w : Nat) (st : RowSt) : Except Nat (List Nat × RowSt) :=
  basicRowLoopF src w (src.length + 1 - st.srcIdx + 1) st

theorem basicRowLoopF_fuel (src : List Nat) (w : Nat) :
    ∀ f1 f2 st, src.length + 1 - st.srcIdx < f1 → src.length + 1 - st.srcIdx < f2 →
    basicRowLoopF src w f1 st = basicRowLoopF src w f2 st := by
  intro f1
  induction f1 with
  | zero => intro f2 st h1 h2; omega
  | succ f1 ih =>
    intro f2 st h1 h2
    cases f2 with
    | zero => omega
    | succ f2 =>
      rw [basicRowLoopF, basicRowLoopF]
      by_cases hpc : st.pixelCount < w
      · rw [if_pos hpc, if_pos hpc]
        by_cases hs : st.srcIdx + 3 ≤ src.length
        · rw [if_pos hs, if_pos hs]
          have hrec := ih f2 ⟨st.srcIdx + 3, getByte src (st.srcIdx + 1),
            getByte src st.srcIdx, getByte src (st.srcIdx + 2),
            min (getByte src (st.srcIdx + 2)) (w - st.pixelCount),
            st.pixelCount + min (getByte src (st.srcIdx + 2)) (w - st.pixelCount)⟩
            (by simp only []; omega) (by simp only []; omega)
          simp only [hrec]
        · rw [if_neg hs, if_neg hs]
      · rw [if_neg hpc, if_neg hpc]

/-- The C loop equation for `basicRowLoop`. -/
theorem basicRowLoop_eq (src : List Nat) (w : Nat) (st : RowSt) :
    basicRowLoop src w st =
      if st.pixelCount < w then
        if st.srcIdx + 3 ≤ src.length then
          let cnt := getByte src (st.srcIdx + 2)
          let p0 := getByte src (st.srcIdx + 1)
          let p1 := getByte src st.srcIdx
          let i := min cnt (w - st.pixelCount)
          match basicRowLoop src w ⟨st.srcIdx + 3, p0, p1, cnt, i, st.pixelCount + i⟩ with
          | .error e => .error e
          | .ok (bs, fin) => .ok (expandPix p0 p1 i ++ bs, fin)
        else .error 102
      else .ok ([], st) := by
  rw [basicRowLoop]
  have hf : src.length + 1 - st.srcIdx + 1 = (src.length + 1 - st.srcIdx) + 1 := rfl
  rw [hf, basicRowLoopF]
  by_cases hpc : st.pixelCount < w
  · rw [if_pos hpc, if_pos hpc]
    by_cases hs : st.srcIdx + 3 ≤ src.length
    · rw [if_pos hs, if_pos hs]
      simp only [basicRowLoop]
      have hrec := basicRowLoopF_fuel src w (src.length + 1 - st.srcIdx)
        (src.length + 1 - (st.srcIdx + 3) + 1) ⟨st.srcIdx + 3, getByte src (st.srcIdx + 1),
          getByte src st.srcIdx, getByte src (st.srcIdx + 2),
          min (getByte src (st.srcIdx + 2)) (w - st.pixelCount),
          st.pixelCount + min (getByte src (st.srcIdx + 2)) (w - st.pixelCount)⟩
        (by simp only []; omega) (by simp only []; omega)
      simp only [hrec]
    · rw [if_neg hs, if_neg hs]
  · rw [if_neg hpc, if_neg hpc]

/-- One row of the RLE_BASIC branch: first fill leftover pixels of the
carried run (`while (i < count && i < imgWidth)`), then run the record loop;
afterwards the leftover count is `count - i` of the last record touched. -/
def basicRow (src : List Nat) (w : Nat) (st : BasicSt) : Except Nat (List Nat × BasicSt) :=
  let i0 := min st.cnt w
  match basicRowLoop src w ⟨st.srcIdx, st.p0, st.p1, st.cnt, i0, i0⟩ with
  | .error e => .error e
  | .ok (bs, fin) =>
    .ok (expandPix st.p0 st.p1 i0 ++ bs, ⟨fin.srcIdx, fin.p0, fin.p1, fin.cnt - fin.i⟩)

/-- RLE_BASIC row iteration: `h` rows of `drs` output bytes each. -/
def basicRows (src : List Nat) (w drs : Nat) (st : BasicSt) : Nat → Except Nat (List (List Nat))
  | 0 => .ok []
  | n + 1 =>
    match basicRow src w st with
    | .error e => .error e
    | .ok (bs, st') =>
      match basicRows src w drs st' n with
      | .error e => .error e
      | .ok rest => .ok (padRow drs bs :: rest)

/-- RLE_BASIC branch of `dumpBMP16`: flat record stream starting at byte 2,
initial pixel and count 0. -/
def decodeRLEBasic (src : List Nat) (w h drs : Nat) : Except Nat (List (List Nat)) :=
  basicRows src w drs ⟨2, 0, 0, 0⟩ h

/-- One output row of the raw RGB565 branch: each stored pixel is
byte-swapped (`swap_bo_u16`) and written low byte first. -/
def rawRow (src : List Nat) (w srcIdx : Nat) : List Nat :=
  (List.range w).flatMap (fun x =>
    let pixel := swap_bo_u16 (get_u16 src (srcIdx + 2 * x))
    [pixel &&& 0xFF, pixel >>> 8])

/-- Raw RGB565 branch of `dumpBMP16`: error 103 when
`imgHeight*imgWidth*2 > srcDataSize`. -/
def decodeRaw (src : List Nat) (w h drs : Nat) : Except Nat (List (List Nat)) :=
  if src.length < h * w * 2 then .error 103
  else .ok ((List.range h).map (fun y => padRow drs (rawRow src w (y * (w * 2)))))

/-- `dumpBMP16` (file I/O errors not modelled): checks `srcDataSize < 2`
(error 100), the RLE identifier `0x2108`, `destRowSize > sizeof(buf)`
(error 3), then dispatches on `isRLE` and `basicRLE`. -/
def dumpBMP16 (srcData : List Nat) (w h : Nat) (basicRLE : Bool) :
    Except Nat (List (List Nat)) :=
  if srcData.length < 2 then .error 100
  else if 8192 < destRowSize w h then .error 3
  else if get_u16 srcData 0 = 0x2108 ∧ basicRLE = false then
    decodeRLELine srcData h (destRowSize w h)
  else if get_u16 srcData 0 = 0x2108 ∧ basicRLE = true then
    decodeRLEBasic srcData w h (destRowSize w h)
  else decodeRaw srcData w h (destRowSize w h)

/-! ## Flat-stream reference semantics for RLE_BASIC -/

/-- Fuelled form of the flat RLE reference stream (each step advances
`srcIdx` by 3 under `srcIdx + 3 <= src.length`, so `src.length + 1 - srcIdx`
strict fuel always suffices; see `flatRLE_eq`). -/
def flatRLEF (src : List Nat) : Nat → Nat → Nat → Except Nat (List (Nat × Nat))
  | 0, _, _ => .error 102
  | fuel + 1, srcIdx, needed =>
    if needed = 0 then .ok []
    else if srcIdx + 3 ≤ src.length then
      let i := min (getByte src (srcIdx + 2)) needed
      match flatRLEF src fuel (srcIdx + 3) (needed - i) with
      | .error e => .error e
      | .ok rest =>
        .ok (List.replicate i (getByte src (srcIdx + 1), getByte src srcIdx) ++ rest)
    else .error 102

/-- Reference semantics of a flat RLE record stream: consume 3-byte records
from `srcIdx` until `needed` pixels are produced (a final record may be used
only partially); error 102 exactly when the source is exhausted first. -/
def flatRLE (src : List Nat) (srcIdx needed : Nat) : Except Nat (List (Nat × Nat)) :=
  flatRLEF src (src.length + 1 - srcIdx + 1) srcIdx needed

theorem flatRLEF_fuel (src : List Nat) :
    ∀ f1 f2 srcIdx needed, src.length + 1 - srcIdx < f1 → src.length + 1 - srcIdx < f2 →
    flatRLEF src f1 srcIdx needed = flatRLEF src f2 srcIdx needed := by
  intro f1
  induction f1 with
  | zero => intro f2 srcIdx needed h1 h2; omega
  | succ f1 ih =>
    intro f2 srcIdx needed h1 h2
    cases f2 with
    | zero => omega
    | succ f2 =>
      rw [flatRLEF, flatRLEF]
      by_cases hn : needed = 0
      · rw [if_pos hn, if_pos hn]
      · rw [if_neg hn, if_neg hn]
        by_cases hs : srcIdx + 3 ≤ src.length
        · rw [if_pos hs, if_pos hs]
          have hrec := ih f2 (srcIdx + 3)
            (needed - min (getByte src (srcIdx + 2)) needed) (by omega) (by omega)
          simp only [hrec]
        · rw [if_neg hs, if_neg hs]

/-- The defining equation of `flatRLE`. -/
theorem flatRLE_eq (src : List Nat) (srcIdx needed : Nat) :
    flatRLE src srcIdx needed =
      if needed = 0 then .ok []
      else if srcIdx + 3 ≤ src.length then
        let i := min (getByte src (srcIdx + 2)) needed
        match flatRLE src (srcIdx + 3) (needed - i) with
        | .error e => .error e
        | .ok rest =>
          .ok (List.replicate i (getByte src (srcIdx + 1), getByte src srcIdx) ++ rest)
      else .error 102 := by
  rw [flatRLE]
  have hf : src.length + 1 - srcIdx + 1 = (src.length + 1 - srcIdx) + 1 := rfl
  rw [hf, flatRLEF]
  by_cases hn : needed = 0
  · rw [if_pos hn, if_pos hn]
  · rw [if_neg hn, if_neg hn]
    by_cases hs : srcIdx + 3 ≤ src.length
    · rw [if_pos hs, if_pos hs]
      simp only [flatRLE]
      have hrec := flatRLEF_fuel src (src.length + 1 - srcIdx)
        (src.length + 1 - (srcIdx + 3) + 1) (srcIdx + 3)
        (needed - min (getByte src (srcIdx + 2)) needed) (by omega) (by omega)
      simp only [hrec]
    · rw [if_neg hs, if_neg hs]

/-- Split a list into `n` chunks of `w` elements each. -/
def chunksOf (w : Nat) : Nat → List α → List (List α)
  | 0, _ => []
  | n + 1, l => l.take w :: chunksOf w n (l.drop w)

/-- Serialize a row of decoded pixels the way the row buffer stores them:
`pixel0` then `pixel1` per pixel. -/
def pixRowBytes (ps : List (Nat × Nat)) : List Nat :=
  ps.flatMap (fun p => [p.1, p.2])

/-! ## autodetectFileType (dawft.c) -/

/-- Loop state of `autodetectFileType`. -/
structure DetectSt where
  aCount : Nat
  aRun : Bool
  bCount : Nat
  bRun : Bool
  bMax : Nat
deriving Repr, DecidableEq

/-- One iteration of the detection loop at index `i`: while still running,
a nonzero u32 at `200 + 4*i` bumps the A count; a nonzero u32 at `400 + 4*i`
bumps the B count and overwrites `bMax` with that offset; a zero entry stops
the respective count. -/
def detectStep (fileData : List Nat) (st : DetectSt) (i : Nat) : DetectSt :=
  let st1 :=
    if st.aRun then
      if get_u32 fileData (200 + i * 4) ≠ 0 then { st with aCount := st.aCount + 1 }
      else { st with aRun := false }
    else st
  if st1.bRun then
    let offset := get_u32 fileData (400 + i * 4)
    if offset ≠ 0 then { st1 with bCount := st1.bCount + 1, bMax := offset }
    else { st1 with bRun := false }
  else st1

/-- `autodetectFileType`: counts (starting from 1) the nonzero u32 entries at
`200+4i` and `400+4i` for `i = 1..249`, stopping each count at the first
zero; compares against the `blobCount` byte at offset 2; for the B/C case
adds 1900 (u32 arithmetic) to the last observed 400-table offset and
compares against the file size. -/
def autodetectFileType (fileData : List Nat) (fileSize : Nat) : Char :=
  let blobCount := getByte fileData 2
  let st := (List.range' 1 249).foldl (detectStep fileData) ⟨1, true, 1, true, 0⟩
  if st.aCount = blobCount then 'A'
  else if st.bCount = blobCount then
    if fileSize < (st.bMax + 1900) % 4294967296 then 'B' else 'C'
  else 'A'

/-- The u32 entries of the A-hypothesis offset table, indices `1..249`. -/
def entriesA (fileData : List Nat) : List Nat :=
  (List.range' 1 249).map (fun i => get_u32 fileData (200 + i * 4))

/-- The u32 entries of the B/C-hypothesis offset table, indices `1..249`. -/
def entriesB (fileData : List Nat) : List Nat :=
  (List.range' 1 249).map (fun i => get_u32 fileData (400 + i * 4))

/-- Leading nonzero run of a table, as the claim describes the scan. -/
def nzRun (l : List Nat) : List Nat := l.takeWhile (fun v => v ≠ 0)

/-- Modelled from the claim's words: the detector it describes, with the
B/C disambiguation using the MAXIMUM observed offset (the point at issue);
counts start at 1 for the implicit zero first entry. -/
def specDetectMax (fileData : List Nat) (fileSize : Nat) : Char :=
  let blobCount := getByte fileData 2
  let aCount := 1 + (nzRun (entriesA fileData)).length
  let bCount := 1 + (nzRun (entriesB fileData)).length
  let bMax := (nzRun (entriesB fileData)).foldl max 0
  if aCount = blobCount then 'A'
  else if bCount = blobCount then
    if fileSize < (bMax + 1900) % 4294967296 then 'B' else 'C'
  else 'A'

/-- The same detector description but with the LAST observed nonzero offset,
which is what the code's running `typeBMax` variable actually holds. -/
def specDetectLast (fileData : List Nat) (fileSize : Nat) : Char :=
  let blobCount := getByte fileData 2
  let aCount := 1 + (nzRun (entriesA fileData)).length
  let bCount := 1 + (nzRun (entriesB fileData)).length
  let bLast := (nzRun (entriesB fileData)).getLastD 0
  if aCount = blobCount then 'A'
  else if bCount = blobCount then
    if fileSize < (bLast + 1900) % 4294967296 then 'B' else 'C'
  else 'A'

/-! ## Offset validation in main (dawft.c, dump path) -/

/-- The offset-checking loop of `main`: for each `i < 250` with
`offsets[i] != 0 || i == 0`, if `offsets[i] >= fileSize` and the file type is
not `'B'`, print an ERROR and set the `fail` flag (later entries are then no
longer checked, but the flag stays set). -/
def offsetsFail (offsets : List Nat) (fileSize : Nat) (fileType : Char) : Bool :=
  (List.range 250).any (fun i =>
    (offsets.getD i 0 ≠ 0 ∨ i = 0) ∧ fileSize ≤ offsets.getD i 0 ∧ fileType ≠ 'B')

/-- After the loop, `main` prints the collected text and then
`if (fail) { deleteBytes(bytes); return 1; }`: processing of the file stops
with exit code 1. -/
def validateOffsets (offsets : List Nat) (fileSize : Nat) (fileType : Char) :
    Except Nat Unit :=
  if offsetsFail offsets fileSize fileType then .error 1 else .ok ()

/-! ## Pixel codec (bmp.c) -/

/-- `struct _RGBTrip`. -/
structure RGBTrip where
  r : Nat
  g : Nat
  b : Nat
deriving Repr, DecidableEq

/-- `RGB565to888`: byte-swap the stored pixel, extract the 5/6/5 fields and
replicate their top bits into the low bits of each 8-bit channel. -/
def RGB565to888 (pixel : Nat) : RGBTrip :=
  let s := swap_bo_u16 pixel
  { b := ((s &&& 0x001F) <<< 3) ||| ((s &&& 0x001C) >>> 3)
    g := ((s &&& 0x07E0) >>> 3) ||| ((s &&& 0x0600) >>> 9)
    r := ((s &&& 0xF800) >>> 8) ||| ((s &&& 0xE000) >>> 13) }

/-- `RGBTripTo565`: truncate each channel to 5/6/5 bits and pack. -/
def RGBTripTo565 (t : RGBTrip) : Nat :=
  ((t.b &&& 0xF8) >>> 3) ||| ((t.g &&& 0xFC) <<< 3) ||| ((t.r &&& 0xF8) <<< 8)

/-- `ARGB8888to565`: pack the b/g/r bytes, ignoring alpha. -/
def ARGB8888to565 (b g r : Nat) : Nat :=
  ((b &&& 0xF8) >>> 3) ||| ((g &&& 0xFC) <<< 3) ||| ((r &&& 0xF8) <<< 8)

/-- One blended channel in `newImgFromFile`:
`(u8)(((u32)(255 - a) * bg + (u32)a * fg) / 255)`. -/
def blendChannel (bg fg a : Nat) : Nat :=
  ((255 - a) * bg + a * fg) / 255 % 256

/-- The 32bpp-with-background pixel path of `newImgFromFile`: expand the
background RGB565 pixel to 888, blend each channel against the foreground
b/g/r with alpha `a`, repack to RGB565. -/
def blendPixel (pixelIn r g b a : Nat) : Nat :=
  let bgPixel := RGB565to888 pixelIn
  RGBTripTo565
    { r := blendChannel bgPixel.r r a
      g := blendChannel bgPixel.g g a
      b := blendChannel bgPixel.b b a }

/-! ## Encoder lemmas -/

/-- Pixel expansion of one run record. -/
def expandRec (r : Nat × Nat × Nat) : List (Nat × Nat) :=
  List.replicate r.2.2 (r.1, r.2.1)

/-- Pixel expansion of a record list. -/
def expandRecs (rs : List (Nat × Nat × Nat)) : List (Nat × Nat) :=
  rs.flatMap expandRec

theorem expandRecs_nil : expandRecs [] = [] := rfl

theorem expandRecs_cons (r : Nat × Nat × Nat) (rs : List (Nat × Nat × Nat)) :
    expandRecs (r :: rs) = expandRec r ++ expandRecs rs := rfl

theorem encodeRowLoop_nil_pos (prev : Nat × Nat) (rl : Nat) (h : 0 < rl) :
    encodeRowLoop [] prev rl = [(prev.1, prev.2, rl)] := by
  simp [encodeRowLoop, h]

theorem encodeRowLoop_nil_zero (prev : Nat × Nat) :
    encodeRowLoop [] prev 0 = [] := by
  simp [encodeRowLoop]

theorem encodeRowLoop_cons_ne (c : Nat × Nat) (rest : List (Nat × Nat))
    (prev : Nat × Nat) (rl : Nat) (h : c ≠ prev) :
    encodeRowLoop (c :: rest) prev rl =
      (prev.1, prev.2, rl) :: encodeRowLoop rest c 1 := by
  simp [encodeRowLoop, h]

theorem encodeRowLoop_cons_eq255 (rest : List (Nat × Nat)) (prev : Nat × Nat)
    (rl : Nat) (h : rl + 1 = 255) :
    encodeRowLoop (prev :: rest) prev rl =
      (prev.1, prev.2, 255) :: encodeRowLoop rest prev 0 := by
  simp [encodeRowLoop, h]

theorem encodeRowLoop_cons_eq (rest : List (Nat × Nat)) (prev : Nat × Nat)
    (rl : Nat) (h : rl + 1 ≠ 255) :
    encodeRowLoop (prev :: rest) prev rl = encodeRowLoop rest prev (rl + 1) := by
  simp [encodeRowLoop, h]

/-- The run records of `encodeRowLoop` expand back to the pending run plus the
remaining pixels. -/
theorem encodeRowLoop_expand (rest : List (Nat × Nat)) (prev : Nat × Nat) (rl : Nat) :
    expandRecs (encodeRowLoop rest prev rl) = List.replicate rl prev ++ rest := by
  induction rest generalizing prev rl with
  | nil =>
    by_cases h : 0 < rl
    · simp [encodeRowLoop_nil_pos prev rl h, expandRecs, expandRec]
    · have : rl = 0 := by omega
      simp [this, encodeRowLoop_nil_zero, expandRecs]
  | cons c rest ih =>
    by_cases hc : c = prev
    · subst hc
      by_cases h255 : rl + 1 = 255
      · rw [encodeRowLoop_cons_eq255 rest c rl h255, expandRecs_cons, ih,
          expandRec]
        have : (255 : Nat) = rl + 1 := h255.symm
        simp only [this, List.replicate_succ', List.replicate_zero,
          List.nil_append, List.append_assoc, List.singleton_append]
      · rw [encodeRowLoop_cons_eq rest c rl h255, ih, List.replicate_succ']
        simp
    · rw [encodeRowLoop_cons_ne c rest prev rl hc, expandRecs_cons, ih, expandRec]
      simp

/-- The run records of a row expand back to exactly that row. -/
theorem encodeRow_expand (row : List (Nat × Nat)) :
    expandRecs (encodeRow row) = row := by
  cases row with
  | nil => rfl
  | cons c rest =>
    rw [encodeRow, encodeRowLoop_expand]
    simp

/-- Every record count emitted by the row loop is at most 255, given the
loop invariant `runLength ≤ 254` on entry. -/
theorem encodeRowLoop_count_le (rest : List (Nat × Nat)) (prev : Nat × Nat) (rl : Nat)
    (hrl : rl ≤ 254) : ∀ r ∈ encodeRowLoop rest prev rl, r.2.2 ≤ 255 := by
  induction rest generalizing prev rl with
  | nil =>
    intro r hr
    by_cases h : 0 < rl
    · rw [encodeRowLoop_nil_pos prev rl h] at hr
      simp only [List.mem_singleton] at hr
      subst hr; simpa using by omega
    · have : rl = 0 := by omega
      rw [this, encodeRowLoop_nil_zero] at hr
      simp at hr
  | cons c rest ih =>
    intro r hr
    by_cases hc : c = prev
    · subst hc
      by_cases h255 : rl + 1 = 255
      · rw [encodeRowLoop_cons_eq255 rest c rl h255] at hr
        simp only [List.mem_cons] at hr
        rcases hr with hr | hr
        · subst hr; simp
        · exact ih c 0 (by omega) r hr
      · rw [encodeRowLoop_cons_eq rest c rl h255] at hr
        exact ih c (rl + 1) (by omega) r hr
    · rw [encodeRowLoop_cons_ne c rest prev rl hc] at hr
      simp only [List.mem_cons] at hr
      rcases hr with hr | hr
      · subst hr; simpa using by omega
      · exact ih c 1 (by omega) r hr

theorem encodeRow_count_le (row : List (Nat × Nat)) :
    ∀ r ∈ encodeRow row, r.2.2 ≤ 255 := by
  cases row with
  | nil => intro r hr; simp [encodeRow] at hr
  | cons c rest => exact encodeRowLoop_count_le rest c 1 (by omega)

/-- A count-0 record is emitted only right after a 255-count record, and the
head record of the loop output is nonzero whenever the pending run is. -/
theorem encodeRowLoop_zero_chain (rest : List (Nat × Nat)) (prev : Nat × Nat) (rl : Nat) :
    List.Chain' (fun a b : Nat × Nat × Nat => b.2.2 = 0 → a.2.2 = 255)
      (encodeRowLoop rest prev rl) ∧
    (1 ≤ rl → ∀ r, (encodeRowLoop rest prev rl).head? = some r → 0 < r.2.2) := by
  induction rest generalizing prev rl with
  | nil =>
    by_cases h : 0 < rl
    · rw [encodeRowLoop_nil_pos prev rl h]
      refine ⟨List.chain'_singleton _, ?_⟩
      intro _ r hr
      simp only [List.head?_cons, Option.some.injEq] at hr
      subst hr; simpa using h
    · have : rl = 0 := by omega
      subst this
      rw [encodeRowLoop_nil_zero]
      exact ⟨List.chain'_nil, by intro h1; omega⟩
  | cons c rest ih =>
    by_cases hc : c = prev
    · subst hc
      by_cases h255 : rl + 1 = 255
      · rw [encodeRowLoop_cons_eq255 rest c rl h255]
        refine ⟨?_, ?_⟩
        · rw [List.chain'_cons']
          exact ⟨fun r _ _ => rfl, (ih c 0).1⟩
        · intro _ r hr
          simp only [List.head?_cons, Option.some.injEq] at hr
          subst hr; simp
      · rw [encodeRowLoop_cons_eq rest c rl h255]
        exact ⟨(ih c (rl + 1)).1, fun _ => (ih c (rl + 1)).2 (by omega)⟩
    · rw [encodeRowLoop_cons_ne c rest prev rl hc]
      refine ⟨?_, ?_⟩
      · rw [List.chain'_cons']
        refine ⟨?_, (ih c 1).1⟩
        intro r hr hr0
        exact absurd hr0 (by have := (ih c 1).2 (by omega) r hr; omega)
      · intro hrl r hr
        simp only [List.head?_cons, Option.some.injEq] at hr
        subst hr; simpa using by omega

/-- Record list of a constant run of `n` further pixels equal to `prev`, with
pending run length `rl ≤ 254`: `(n+rl)/255` full records then the remainder. -/
theorem encodeRowLoop_const (n : Nat) (p : Nat × Nat) (rl : Nat) (hrl : rl ≤ 254) :
    encodeRowLoop (List.replicate n p) p rl =
      List.replicate ((n + rl) / 255) (p.1, p.2, 255) ++
        (if (n + rl) % 255 = 0 then [] else [(p.1, p.2, (n + rl) % 255)]) := by
  induction n generalizing rl with
  | zero =>
    rw [List.replicate_zero]
    by_cases h : 0 < rl
    · have h1 : (0 + rl) / 255 = 0 := by omega
      have h2 : (0 + rl) % 255 = rl := by omega
      have h3 : ¬(0 + rl) % 255 = 0 := by omega
      rw [encodeRowLoop_nil_pos p rl h, h1, h2, if_neg (by omega : ¬rl = 0)]
      simp
    · have : rl = 0 := by omega
      subst this
      rw [encodeRowLoop_nil_zero]
      simp
  | succ n ih =>
    rw [List.replicate_succ]
    by_cases h255 : rl + 1 = 255
    · rw [encodeRowLoop_cons_eq255 _ p rl h255, ih 0 (by omega)]
      have e1 : (n + 0) / 255 + 1 = (n + 1 + rl) / 255 := by omega
      have e2 : (n + 0) % 255 = (n + 1 + rl) % 255 := by omega
      rw [← e1, ← e2, List.replicate_succ]
      simp
    · rw [encodeRowLoop_cons_eq _ p rl h255, ih (rl + 1) (by omega)]
      have : n + (rl + 1) = n + 1 + rl := by omega
      rw [this]

/-- `encodeRow` on a constant row of `n ≥ 1` pixels. -/
theorem encodeRow_const (n : Nat) (p : Nat × Nat) (hn : 1 ≤ n) :
    encodeRow (List.replicate n p) =
      List.replicate (n / 255) (p.1, p.2, 255) ++
        (if n % 255 = 0 then [] else [(p.1, p.2, n % 255)]) := by
  obtain ⟨m, rfl⟩ : ∃ m, n = m + 1 := ⟨n - 1, by omega⟩
  rw [List.replicate_succ, encodeRow, encodeRowLoop_const m p 1 (by omega)]

/-! ## Claim C5: encoder run splitting -/

instance {ε α : Type _} [DecidableEq ε] [DecidableEq α] : DecidableEq (Except ε α) :=
  fun x y =>
  match x, y with
  | .error a, .error b =>
    if h : a = b then .isTrue (by rw [h])
    else .isFalse (by intro hc; injection hc; exact h (by assumption))
  | .error _, .ok _ => .isFalse (by intro hc; injection hc)
  | .ok _, .error _ => .isFalse (by intro hc; injection hc)
  | .ok a, .ok b =>
    if h : a = b then .isTrue (by rw [h])
    else .isFalse (by intro hc; injection hc; exact h (by assumption))

set_option maxRecDepth 8192 in
/-- C5: the claim is false as stated: a maximal run of exactly 255 identical
pixels followed by a different pixel in the same row is emitted as TWO
records, a 255-count record and a count-0 record (the pixel change right
after the 255-flush stores `runLength = 0`), so a count-0 record IS emitted. -/
theorem encodeRow_emits_zero_count_record :
    encodeRow (List.replicate 255 ((1 : Nat), (1 : Nat)) ++ [((2 : Nat), (2 : Nat))]) =
      [(1, 1, 255), (1, 1, 0), (2, 2, 1)] ∧
    (1, 1, 0) ∈
      encodeRow (List.replicate 255 ((1 : Nat), (1 : Nat)) ++ [((2 : Nat), (2 : Nat))]) := by
  refine ⟨by decide, by decide⟩

/-- C5 (amended): every emitted count is at most 255; the records expand back
to the row (so each row's counts sum to the row width and runs are split at
255); a count-0 record can only appear immediately after a 255-count record
(and never first); a single-run row of `n ∈ [1,255]` identical pixels is one
record of count `n`, and a row of 256 identical pixels encodes as a 255
record followed by a 1 record. -/
theorem encodeRow_run_splitting (row : List (Nat × Nat)) (p : Nat × Nat) (n : Nat) :
    (∀ r ∈ encodeRow row, r.2.2 ≤ 255) ∧
    expandRecs (encodeRow row) = row ∧
    List.Chain' (fun a b : Nat × Nat × Nat => b.2.2 = 0 → a.2.2 = 255) (encodeRow row) ∧
    (∀ r, (encodeRow row).head? = some r → 0 < r.2.2) ∧
    (1 ≤ n → n ≤ 255 → encodeRow (List.replicate n p) = [(p.1, p.2, n)]) ∧
    encodeRow (List.replicate 256 p) = [(p.1, p.2, 255), (p.1, p.2, 1)] := by
  refine ⟨encodeRow_count_le row, encodeRow_expand row, ?_, ?_, ?_, ?_⟩
  · cases row with
    | nil => exact List.chain'_nil
    | cons c rest => exact (encodeRowLoop_zero_chain rest c 1).1
  · cases row with
    | nil => intro r hr; simp [encodeRow] at hr
    | cons c rest => exact (encodeRowLoop_zero_chain rest c 1).2 (by omega)
  · intro h1 h255
    rw [encodeRow_const n p h1]
    by_cases h : n = 255
    · subst h; simp
    · have e1 : n / 255 = 0 := by omega
      have e2 : n % 255 = n := by omega
      rw [e1, e2, if_neg (by omega)]
      simp
  · rw [encodeRow_const 256 p (by omega)]
    norm_num

/-- Witness for C5 (amended) at concrete inputs. -/
theorem encodeRow_run_splitting_witness :
    encodeRow (List.replicate 3 ((7 : Nat), (9 : Nat))) = [(7, 9, 3)] ∧
    expandRecs (encodeRow [((3 : Nat), (4 : Nat))]) = [(3, 4)] :=
  ⟨(encodeRow_run_splitting [((3 : Nat), (4 : Nat))] (7, 9) 3).2.2.2.2.1
      (by decide) (by decide),
   (encodeRow_run_splitting [((3 : Nat), (4 : Nat))] (7, 9) 3).2.1⟩

/-! ## Claim C6: compressImg keeps the image on overflow or growth -/

/-- C6: when some row's cumulative end offset exceeds 65535 (after the
`minSize` pre-check admitted the image), or the encoding is not smaller than
the raw pixel data, `compressImg` returns 0 (success) with the image left
completely unchanged, i.e. still reported as uncompressed. -/
theorem compressImg_keeps_image (img : Img) (hc : img.compression = 0)
    (hmin : minSizeRLE img ≤ 65535)
    (hcond : (∃ y, y < img.h ∧ 65535 < rowEndOffset img y) ∨
      img.size ≤ (blobBytes img).length) :
    compressImg img = (0, img) := by
  rw [compressImg, if_neg (by simp [hc]), if_neg (by omega)]
  rcases hcond with ⟨y, hy, hgt⟩ | hge
  · have hany : ((List.range img.h).any fun y => 65535 < rowEndOffset img y) = true := by
      rw [List.any_eq_true]
      exact ⟨y, List.mem_range.mpr hy, by simpa using hgt⟩
    rw [if_pos hany]
  · by_cases hany : ((List.range img.h).any fun y => 65535 < rowEndOffset img y) = true
    · rw [if_pos hany]
    · rw [if_neg hany, if_pos hge]

/-- Witness for C6: a 1x1 image whose 7-byte encoding is not smaller than its
2 raw bytes is kept unchanged. -/
theorem compressImg_keeps_image_witness :
    minSizeRLE ⟨1, 1, 0, 2, [7, 7]⟩ ≤ 65535 ∧
    (⟨1, 1, 0, 2, [7, 7]⟩ : Img).size ≤ (blobBytes ⟨1, 1, 0, 2, [7, 7]⟩).length ∧
    compressImg ⟨1, 1, 0, 2, [7, 7]⟩ = (0, ⟨1, 1, 0, 2, [7, 7]⟩) :=
  ⟨by decide, by decide,
   compressImg_keeps_image ⟨1, 1, 0, 2, [7, 7]⟩ rfl (by decide) (Or.inr (by decide))⟩

/-! ## Claim C3: oversized offsets are fatal, not a warning -/

/-- C3: the claim is false: with file type 'A' (not 'B'), a populated offset
entry `5000 >= fileSize = 100` makes the check loop set the `fail` flag, and
`main` then returns 1: processing of the file stops, it does not continue
with a warning. -/
theorem validateOffsets_fatal_counterexample :
    (([0, 5000] : List Nat).getD 1 0 ≠ 0 ∧ 100 ≤ ([0, 5000] : List Nat).getD 1 0 ∧
      ('A' : Char) ≠ 'B') ∧
    validateOffsets [0, 5000] 100 'A' = .error 1 := by
  refine ⟨by decide, by decide⟩

/-- C3 (amended): for every file whose type is not 'B', if some populated
entry of the 250-entry offset table is `>= fileSize`, the tool prints an
ERROR and aborts processing of the file with exit code 1 (fatal), rather
than warning and continuing. -/
theorem validateOffsets_fatal (offsets : List Nat) (fileSize : Nat) (fileType : Char)
    (hft : fileType ≠ 'B')
    (hex : ∃ i, i < 250 ∧ (offsets.getD i 0 ≠ 0 ∨ i = 0) ∧ fileSize ≤ offsets.getD i 0) :
    validateOffsets offsets fileSize fileType = .error 1 := by
  obtain ⟨i, hi, hnz, hge⟩ := hex
  have hfail : offsetsFail offsets fileSize fileType = true := by
    rw [offsetsFail, List.any_eq_true]
    refine ⟨i, List.mem_range.mpr hi, ?_⟩
    simp only [decide_eq_true_eq]
    exact ⟨hnz, hge, hft⟩
  rw [validateOffsets, if_pos hfail]

/-- Witness for C3 (amended) at a concrete offset table. -/
theorem validateOffsets_fatal_witness :
    validateOffsets [0, 33] 20 'C' = .error 1 :=
  validateOffsets_fatal [0, 33] 20 'C' (by decide)
    ⟨1, by omega, Or.inl (by decide), by decide⟩

/-! ## Bit-arithmetic toolkit -/

/-- Masking with a contiguous run of `m` bits starting at bit `k` extracts
`x / 2^k % 2^m`, shifted back up. -/
theorem land_mask (x k m : Nat) :
    x &&& ((2 ^ m - 1) <<< k) = ((x >>> k) % 2 ^ m) <<< k := by
  apply Nat.eq_of_testBit_eq
  intro i
  simp only [Nat.testBit_and, Nat.testBit_shiftLeft, Nat.testBit_shiftRight,
    Nat.testBit_two_pow_sub_one, Nat.testBit_mod_two_pow]
  by_cases h : k ≤ i
  · have e : k + (i - k) = i := by omega
    simp only [ge_iff_le, h, e]
    cases hx : x.testBit i <;> simp [h]
  · simp [ge_iff_le, h]

/-- Or of a multiple of `2^k` with a value below `2^k` is their sum. -/
theorem lor_eq_add (a b k : Nat) (ha : a % 2 ^ k = 0) (hb : b < 2 ^ k) :
    a ||| b = a + b := by
  apply Nat.eq_of_testBit_eq
  intro i
  have hrw : a + b = 2 ^ k * (a / 2 ^ k) + b := by
    rw [Nat.mul_div_cancel' (Nat.dvd_of_mod_eq_zero ha)]
  rw [Nat.testBit_or, hrw, Nat.testBit_mul_pow_two_add _ hb i]
  by_cases h : i < k
  · have haz : a.testBit i = false := by
      have : a.testBit i = (2 ^ k * (a / 2 ^ k) + 0).testBit i := by
        rw [Nat.mul_div_cancel' (Nat.dvd_of_mod_eq_zero ha), Nat.add_zero]
      rw [this, Nat.testBit_mul_pow_two_add _ (Nat.pos_pow_of_pos k (by omega)) i,
        if_pos h]
      simp
    simp [h, haz]
  · have hbz : b.testBit i = false :=
      Nat.testBit_lt_two_pow (lt_of_lt_of_le hb (Nat.pow_le_pow_right (by omega) (by omega)))
    have : a.testBit i = (2 ^ k * (a / 2 ^ k)).testBit i := by
      conv_lhs => rw [← Nat.mul_div_cancel' (Nat.dvd_of_mod_eq_zero ha)]
    rw [if_neg h, hbz, Bool.or_false]
    rw [this, ← Nat.add_zero (2 ^ k * (a / 2 ^ k)),
      Nat.testBit_mul_pow_two_add _ (Nat.pos_pow_of_pos k (by omega)) i, if_neg h]

/-- `lor_eq_add` with the power of two given as a numeral and the sum folded
into an arbitrary arithmetic form. -/
theorem lor_eq_add_lit (a b m k : Nat) (hm : m = 2 ^ k) (ha : a % m = 0) (hb : b < m)
    (c : Nat) (hc : a + b = c) : a ||| b = c := by
  subst hm; rw [lor_eq_add a b k ha hb]; exact hc

theorem land_255 (x : Nat) : x &&& 0xFF = x % 256 := by
  have := Nat.and_pow_two_sub_one_eq_mod x 8
  norm_num at this
  exact this

theorem land_31 (x : Nat) : x &&& 0x1F = x % 32 := by
  have := Nat.and_pow_two_sub_one_eq_mod x 5
  norm_num at this
  exact this

theorem land_28 (x : Nat) : x &&& 0x1C = x / 4 % 8 * 4 := by
  have := land_mask x 2 3
  norm_num [Nat.shiftLeft_eq, Nat.shiftRight_eq_div_pow] at this
  exact this

theorem land_2016 (x : Nat) : x &&& 0x7E0 = x / 32 % 64 * 32 := by
  have := land_mask x 5 6
  norm_num [Nat.shiftLeft_eq, Nat.shiftRight_eq_div_pow] at this
  exact this

theorem land_1536 (x : Nat) : x &&& 0x600 = x / 512 % 4 * 512 := by
  have := land_mask x 9 2
  norm_num [Nat.shiftLeft_eq, Nat.shiftRight_eq_div_pow] at this
  exact this

theorem land_63488 (x : Nat) : x &&& 0xF800 = x / 2048 % 32 * 2048 := by
  have := land_mask x 11 5
  norm_num [Nat.shiftLeft_eq, Nat.shiftRight_eq_div_pow] at this
  exact this

theorem land_57344 (x : Nat) : x &&& 0xE000 = x / 8192 % 8 * 8192 := by
  have := land_mask x 13 3
  norm_num [Nat.shiftLeft_eq, Nat.shiftRight_eq_div_pow] at this
  exact this

theorem land_65280 (x : Nat) : x &&& 0xFF00 = x / 256 % 256 * 256 := by
  have := land_mask x 8 8
  norm_num [Nat.shiftLeft_eq, Nat.shiftRight_eq_div_pow] at this
  exact this

theorem land_248 (x : Nat) : x &&& 0xF8 = x / 8 % 32 * 8 := by
  have := land_mask x 3 5
  norm_num [Nat.shiftLeft_eq, Nat.shiftRight_eq_div_pow] at this
  exact this

theorem land_252 (x : Nat) : x &&& 0xFC = x / 4 % 64 * 4 := by
  have := land_mask x 2 6
  norm_num [Nat.shiftLeft_eq, Nat.shiftRight_eq_div_pow] at this
  exact this

/-- `swap_bo_u16` in plain arithmetic. -/
theorem swap_bo_eq (x : Nat) : swap_bo_u16 x = x % 256 * 256 + x / 256 % 256 := by
  rw [swap_bo_u16, land_255, land_65280, Nat.shiftLeft_eq, Nat.shiftRight_eq_div_pow]
  norm_num
  exact lor_eq_add_lit _ _ 256 8 (by norm_num) (by omega) (by omega) _ (by omega)

theorem swap_bo_lt (x : Nat) : swap_bo_u16 x < 65536 := by
  rw [swap_bo_eq]; omega

/-! ## Pixel codec lemmas -/

/-- `RGB565to888` in plain arithmetic of the byte-swapped pixel (note the C
adds only bits 3-4 of the blue field as low-precision bits, since it shifts
the `0x1C` mask down by 3). -/
theorem RGB565to888_eq (p : Nat) :
    RGB565to888 p =
      { r := swap_bo_u16 p / 2048 % 32 * 8 + swap_bo_u16 p / 8192 % 8
        g := swap_bo_u16 p / 32 % 64 * 4 + swap_bo_u16 p / 512 % 4
        b := swap_bo_u16 p % 32 * 8 + swap_bo_u16 p / 8 % 4 } := by
  rw [RGB565to888]
  set s := swap_bo_u16 p with hs
  have hb : ((s &&& 0x001F) <<< 3) ||| ((s &&& 0x001C) >>> 3) =
      s % 32 * 8 + s / 8 % 4 := by
    rw [land_31, land_28, Nat.shiftLeft_eq, Nat.shiftRight_eq_div_pow]
    norm_num
    have e1 : s / 4 % 8 * 4 / 8 = s / 8 % 4 := by omega
    rw [e1]
    exact lor_eq_add_lit _ _ 8 3 (by norm_num) (by omega) (by omega) _ (by omega)
  have hg : ((s &&& 0x07E0) >>> 3) ||| ((s &&& 0x0600) >>> 9) =
      s / 32 % 64 * 4 + s / 512 % 4 := by
    rw [land_2016, land_1536, Nat.shiftRight_eq_div_pow, Nat.shiftRight_eq_div_pow]
    norm_num
    exact lor_eq_add_lit _ _ 4 2 (by norm_num) (by omega) (by omega) _ (by omega)
  have hr : ((s &&& 0xF800) >>> 8) ||| ((s &&& 0xE000) >>> 13) =
      s / 2048 % 32 * 8 + s / 8192 % 8 := by
    rw [land_63488, land_57344, Nat.shiftRight_eq_div_pow, Nat.shiftRight_eq_div_pow]
    norm_num
    exact lor_eq_add_lit _ _ 8 3 (by norm_num) (by omega) (by omega) _ (by omega)
  rw [hb, hg, hr]

/-- `RGBTripTo565` in plain arithmetic. -/
theorem RGBTripTo565_eq (t : RGBTrip) :
    RGBTripTo565 t = t.r / 8 % 32 * 2048 + t.g / 4 % 64 * 32 + t.b / 8 % 32 := by
  rw [RGBTripTo565, land_248 t.b, land_252 t.g, land_248 t.r,
    Nat.shiftLeft_eq, Nat.shiftLeft_eq, Nat.shiftRight_eq_div_pow]
  norm_num
  have h1 : t.b / 8 % 32 ||| t.g / 4 % 64 * 4 * 8 =
      t.g / 4 % 64 * 32 + t.b / 8 % 32 := by
    rw [Nat.lor_comm]
    exact lor_eq_add_lit _ _ 32 5 (by norm_num) (by omega) (by omega) _ (by omega)
  rw [h1, Nat.lor_comm]
  exact lor_eq_add_lit _ _ 2048 11 (by norm_num) (by omega) (by omega) _ (by omega)

/-- Re-packing the 8-bit-expanded channels recovers the byte-swapped pixel:
the 565→888→565 round trip is the identity. -/
theorem repack_expand (p : Nat) :
    RGBTripTo565 (RGB565to888 p) = swap_bo_u16 p := by
  rw [RGB565to888_eq, RGBTripTo565_eq]
  have hs : swap_bo_u16 p < 65536 := swap_bo_lt p
  set s := swap_bo_u16 p with hdef
  simp only
  have hc1 : (s / 2048 % 32 * 8 + s / 8192 % 8) / 8 % 32 = s / 2048 % 32 := by
    rw [Nat.mul_comm (s / 2048 % 32) 8, Nat.mul_add_div (by norm_num),
      Nat.div_eq_of_lt (show s / 8192 % 8 < 8 by omega), Nat.add_zero]
    omega
  have hc2 : (s / 32 % 64 * 4 + s / 512 % 4) / 4 % 64 = s / 32 % 64 := by
    rw [Nat.mul_comm (s / 32 % 64) 4, Nat.mul_add_div (by norm_num),
      Nat.div_eq_of_lt (show s / 512 % 4 < 4 by omega), Nat.add_zero]
    omega
  have hc3 : (s % 32 * 8 + s / 8 % 4) / 8 % 32 = s % 32 := by
    rw [Nat.mul_comm (s % 32) 8, Nat.mul_add_div (by norm_num),
      Nat.div_eq_of_lt (show s / 8 % 4 < 8 by omega), Nat.add_zero]
    omega
  rw [hc1, hc2, hc3]
  omega

theorem RGB565to888_le (p : Nat) :
    (RGB565to888 p).r ≤ 255 ∧ (RGB565to888 p).g ≤ 255 ∧ (RGB565to888 p).b ≤ 255 := by
  rw [RGB565to888_eq]
  refine ⟨?_, ?_, ?_⟩ <;> simp only <;> omega

/-- The blended channel value never exceeds 255 when both inputs and alpha
are bytes, so the C `(u8)` cast never truncates and the channel equals the
spec formula `((255-a)*bg + a*fg) / 255` with truncating division. -/
theorem blendChannel_eq (bg fg a : Nat) (hbg : bg ≤ 255) (hfg : fg ≤ 255)
    (ha : a ≤ 255) : blendChannel bg fg a = ((255 - a) * bg + a * fg) / 255 := by
  rw [blendChannel]
  have h1 : (255 - a) * bg ≤ (255 - a) * 255 := Nat.mul_le_mul_left _ hbg
  have h2 : a * fg ≤ a * 255 := Nat.mul_le_mul_left _ hfg
  have h3 : (255 - a) * 255 + a * 255 = 255 * 255 := by
    have : 255 - a + a = 255 := by omega
    calc (255 - a) * 255 + a * 255 = (255 - a + a) * 255 := by ring
    _ = 255 * 255 := by rw [this]
  have h4 : ((255 - a) * bg + a * fg) / 255 ≤ 255 * 255 / 255 :=
    Nat.div_le_div_right (by omega)
  have h5 : (255 * 255 : Nat) / 255 = 255 := by norm_num
  exact Nat.mod_eq_of_lt (by omega)

theorem blendChannel_zero (bg fg : Nat) (hbg : bg ≤ 255) :
    blendChannel bg fg 0 = bg := by
  rw [blendChannel]
  norm_num
  omega

theorem blendChannel_255 (bg fg : Nat) (hfg : fg ≤ 255) :
    blendChannel bg fg 255 = fg := by
  rw [blendChannel]
  norm_num
  omega

/-! ## Claim C9: alpha blend against a background -/

/-- C9: each output pixel of the 32bpp-with-background import path is the
per-channel truncating blend `((255-a)*bg + a*fg)/255` of the 8-bit-expanded
background with the foreground, repacked to RGB565 (the C `(u8)` cast never
truncates); alpha 0 returns exactly the original background pixel (the
repacked value is the byte-swap of the stored u16, i.e. the two stored bytes
are written back unchanged: `out >> 8` and `out & 0xFF` are the original
low and high storage bytes); alpha 255 returns exactly the RGB565
conversion of the foreground b/g/r bytes (`ARGB8888to565`). -/
theorem blendPixel_formula_and_endpoints (p r g b a : Nat) (hp : p < 65536)
    (hr : r ≤ 255) (hg : g ≤ 255) (hb : b ≤ 255) (ha : a ≤ 255) :
    blendPixel p r g b a = RGBTripTo565
      { r := ((255 - a) * (RGB565to888 p).r + a * r) / 255
        g := ((255 - a) * (RGB565to888 p).g + a * g) / 255
        b := ((255 - a) * (RGB565to888 p).b + a * b) / 255 } ∧
    blendPixel p r g b 0 = swap_bo_u16 p ∧
    blendPixel p r g b 0 >>> 8 = p % 256 ∧
    blendPixel p r g b 0 &&& 0xFF = p / 256 ∧
    blendPixel p r g b 255 = ARGB8888to565 b g r := by
  obtain ⟨hle_r, hle_g, hle_b⟩ := RGB565to888_le p
  have hzero : blendPixel p r g b 0 = swap_bo_u16 p := by
    rw [blendPixel, blendChannel_zero _ _ hle_r, blendChannel_zero _ _ hle_g,
      blendChannel_zero _ _ hle_b]
    exact repack_expand p
  refine ⟨?_, hzero, ?_, ?_, ?_⟩
  · rw [blendPixel, blendChannel_eq _ _ _ hle_r hr ha,
      blendChannel_eq _ _ _ hle_g hg ha, blendChannel_eq _ _ _ hle_b hb ha]
  · rw [hzero, swap_bo_eq, Nat.shiftRight_eq_div_pow]
    norm_num
    omega
  · rw [hzero, land_255, swap_bo_eq]
    omega
  · rw [blendPixel, blendChannel_255 _ _ hr, blendChannel_255 _ _ hg,
      blendChannel_255 _ _ hb, RGBTripTo565, ARGB8888to565]

/-- Witness for C9 at a concrete background pixel and foreground. -/
theorem blendPixel_witness :
    blendPixel 0xABCD 10 20 30 0 = swap_bo_u16 0xABCD ∧
    blendPixel 0xABCD 10 20 30 255 = ARGB8888to565 30 20 10 :=
  ⟨(blendPixel_formula_and_endpoints 0xABCD 10 20 30 0 (by decide) (by decide)
      (by decide) (by decide) (by decide)).2.1,
   (blendPixel_formula_and_endpoints 0xABCD 10 20 30 255 (by decide) (by decide)
      (by decide) (by decide) (by decide)).2.2.2.2⟩

/-! ## Claim C2: file-type autodetection -/

theorem getLast?_getD_cons {α : Type _} (a m : α) (l : List α) :
    (a :: l).getLast?.getD m = l.getLast?.getD a := by
  cases l with
  | nil => rfl
  | cons b l' => rw [List.getLast?_cons_cons]; rfl

/-- Closed form of the detection loop: starting from any state, the final
counts add the length of the leading nonzero run of the remaining entries
(while still running), the running flags survive only if every entry is
nonzero, and `bMax` ends as the LAST nonzero entry of the leading run. -/
theorem foldl_detect (fd : List Nat) (is : List Nat) :
    ∀ (a : Nat) (ar : Bool) (b : Nat) (br : Bool) (m : Nat),
    is.foldl (detectStep fd) ⟨a, ar, b, br, m⟩ =
      ⟨a + (if ar then ((is.map (fun i => get_u32 fd (200 + i * 4))).takeWhile
              (fun v => v ≠ 0)).length else 0),
       ar && (is.map (fun i => get_u32 fd (200 + i * 4))).all (fun v => v ≠ 0),
       b + (if br then ((is.map (fun i => get_u32 fd (400 + i * 4))).takeWhile
              (fun v => v ≠ 0)).length else 0),
       br && (is.map (fun i => get_u32 fd (400 + i * 4))).all (fun v => v ≠ 0),
       if br then ((is.map (fun i => get_u32 fd (400 + i * 4))).takeWhile
              (fun v => v ≠ 0)).getLastD m else m⟩ := by
  induction is with
  | nil => intro a ar b br m; simp
  | cons i is ih =>
    intro a ar b br m
    rw [List.foldl_cons]
    by_cases hA : get_u32 fd (200 + i * 4) = 0 <;>
      by_cases hB : get_u32 fd (400 + i * 4) = 0 <;>
      cases ar <;> cases br <;>
      simp [detectStep, hA, hB, ih, getLast?_getD_cons, Nat.add_assoc] <;>
      (try constructor) <;> omega

/-- A concrete header on which the B/C decision differs between the code
(last observed offset) and the claim (maximum observed offset): the 400
table holds offsets 10000, 100 and then stops; blobCount = 3; the 200 table
is empty.  With file size 5000 the code compares 100 + 1900 = 2000 ≤ 5000
and answers 'C' (Kind-3). -/
def detectCexFD : List Nat :=
  (((((List.replicate 412 0).set 2 3).set 404 0x10).set 405 0x27).set 408 100)

set_option maxRecDepth 100000 in
/-- C2: the claim is false as stated: the detector keeps only the LAST
observed nonzero 400-table offset in `typeBMax`, not the maximum.  On
`detectCexFD` (offsets 10000 then 100, file size 5000) the code answers 'C'
while the claim's rule (max observed offset 10000; 10000 + 1900 > 5000)
demands 'B'; `specDetectMax` is the claim's rule written out. -/
theorem autodetect_max_counterexample :
    autodetectFileType detectCexFD 5000 = 'C' ∧
    specDetectMax detectCexFD 5000 = 'B' := by
  refine ⟨by decide, by decide⟩

/-- C2 (amended): the detector behaves exactly as the claim describes except
that the Kind-2/Kind-3 comparison uses the LAST observed nonzero offset of
the 400 table (the running variable is overwritten on every nonzero entry),
plus 1900 in u32 arithmetic, against the file size.  `specDetectLast` is
that description written out over the leading nonzero runs of the two
tables, with both counts starting at 1. -/
theorem autodetect_eq_specLast (fd : List Nat) (n : Nat) :
    autodetectFileType fd n = specDetectLast fd n := by
  rw [autodetectFileType, specDetectLast, foldl_detect]
  simp only [entriesA, entriesB, nzRun]
  simp [List.getLastD_eq_getLast?, Nat.add_comm]

/-! ## Claim C7: RLE_LINE decode error conditions -/

/-- C7: the claim is false as stated: here the last row's recorded end
offset (5) exceeds the available source data (4 bytes), yet the decoder does
not report insufficient data: the C checks `lastEnd - 1 > srcDataSize`, so a
last end offset of exactly `srcDataSize + 1` is accepted and decoding
proceeds (reading one byte past the buffer, modelled as 0). -/
theorem rleLine_offbyone_counterexample :
    get_u16 [8, 33, 5, 0] 2 = 5 ∧ ([8, 33, 5, 0] : List Nat).length = 4 ∧
    decodeRLELine [8, 33, 5, 0] 1 4 = .ok [[0, 0, 0, 0]] := by
  refine ⟨by decide, by decide, by decide⟩

/-- C7 (amended): for any source shorter than `2^64 - 1` bytes (a size_t
buffer), the row-indexed decode fails with `InsufficientData` (error 101)
exactly when the source is too short to cover the 2-byte identifier plus
the `2*h`-byte offset table, or the last row's recorded end offset is 0
(the `size_t` computation `lastEnd - 1` wraps around), or that end offset
MINUS ONE exceeds the source length (so an end offset of exactly
`srcDataSize + 1` is accepted); in all other cases the run decoding
proceeds and returns the decoded rows without that error. -/
theorem decodeRLELine_error_iff (src : List Nat) (h drs : Nat)
    (hlen : src.length < 18446744073709551615) :
    (decodeRLELine src h drs = .error 101 ↔
      (src.length < 2 * h + 2 ∨ get_u16 src (2 + (h - 1) * 2) = 0 ∨
        src.length < get_u16 src (2 + (h - 1) * 2) - 1)) ∧
    (¬(src.length < 2 * h + 2 ∨ get_u16 src (2 + (h - 1) * 2) = 0 ∨
        src.length < get_u16 src (2 + (h - 1) * 2) - 1) →
      decodeRLELine src h drs = .ok (rleLineRows src drs 0 (2 * h + 2) h)) := by
  have hd : decodeRLELine src h drs =
      if src.length < 2 * h + 2 ∨
         src.length < (if get_u16 src (2 + (h - 1) * 2) = 0 then
           18446744073709551615 else get_u16 src (2 + (h - 1) * 2) - 1)
      then .error 101 else .ok (rleLineRows src drs 0 (2 * h + 2) h) := rfl
  rw [hd]
  by_cases hz : get_u16 src (2 + (h - 1) * 2) = 0
  · rw [if_pos (by rw [if_pos hz]; omega)]
    refine ⟨⟨fun _ => Or.inr (Or.inl hz), fun _ => rfl⟩, fun hc => absurd (Or.inr (Or.inl hz)) hc⟩
  · rw [if_neg hz] at hd ⊢
    by_cases hc : src.length < 2 * h + 2 ∨ src.length < get_u16 src (2 + (h - 1) * 2) - 1
    · rw [if_pos hc]
      refine ⟨⟨fun _ => ?_, fun _ => rfl⟩, fun hnc => absurd ?_ hnc⟩
      · rcases hc with hc | hc
        · exact Or.inl hc
        · exact Or.inr (Or.inr hc)
      · rcases hc with hc | hc
        · exact Or.inl hc
        · exact Or.inr (Or.inr hc)
    · rw [if_neg hc]
      refine ⟨⟨fun he => absurd he (by simp), fun hcond => ?_⟩, fun _ => rfl⟩
      exact absurd (by tauto) hc

/-- Witness for C7 (amended): a last-row end offset of 0 makes the size_t
subtraction wrap, so the decoder reports error 101. -/
theorem decodeRLELine_error_iff_witness :
    decodeRLELine [8, 33, 0, 0] 1 4 = .error 101 :=
  ((decodeRLELine_error_iff [8, 33, 0, 0] 1 4 (by decide)).1).2
    (Or.inr (Or.inl (by decide)))

/-! ## Claim C8: row-buffer truncation in the RLE_LINE decoder -/

/-- Uncapped reference expansion of one row's records (fuelled). -/
def rleRowUF (src : List Nat) (rowEnd : Nat) : Nat → Nat → List Nat × Nat
  | 0, srcIdx => ([], srcIdx)
  | fuel + 1, srcIdx =>
    if srcIdx < rowEnd then
      let r := rleRowUF src rowEnd fuel (srcIdx + 3)
      (expandPix (getByte src (srcIdx + 1)) (getByte src srcIdx)
        (getByte src (srcIdx + 2)) ++ r.1, r.2)
    else ([], srcIdx)

/-- Uncapped reference expansion of one row's records: like `rleRow` but with
no 8192-byte buffer bound on the writes. -/
def rleRowU (src : List Nat) (rowEnd srcIdx : Nat) : List Nat × Nat :=
  rleRowUF src rowEnd (rowEnd - srcIdx) srcIdx

theorem rleRowUF_fuel (src : List Nat) (rowEnd : Nat) :
    ∀ f1 f2 srcIdx, rowEnd - srcIdx ≤ f1 → rowEnd - srcIdx ≤ f2 →
    rleRowUF src rowEnd f1 srcIdx = rleRowUF src rowEnd f2 srcIdx := by
  intro f1
  induction f1 with
  | zero =>
    intro f2 srcIdx h1 h2
    cases f2 with
    | zero => rfl
    | succ f2 => rw [rleRowUF, rleRowUF, if_neg (by omega)]
  | succ f1 ih =>
    intro f2 srcIdx h1 h2
    cases f2 with
    | zero => rw [rleRowUF, rleRowUF, if_neg (by omega)]
    | succ f2 =>
      rw [rleRowUF, rleRowUF]
      by_cases hlt : srcIdx < rowEnd
      · rw [if_pos hlt, if_pos hlt]
        have hrec := ih f2 (srcIdx + 3) (by omega) (by omega)
        simp only [hrec]
      · rw [if_neg hlt, if_neg hlt]

/-- The loop equation for `rleRowU`. -/
theorem rleRowU_eq (src : List Nat) (rowEnd srcIdx : Nat) :
    rleRowU src rowEnd srcIdx =
      if srcIdx < rowEnd then
        let r := rleRowU src rowEnd (srcIdx + 3)
        (expandPix (getByte src (srcIdx + 1)) (getByte src srcIdx)
          (getByte src (srcIdx + 2)) ++ r.1, r.2)
      else ([], srcIdx) := by
  rw [rleRowU]
  by_cases hlt : srcIdx < rowEnd
  · obtain ⟨f, hf⟩ : ∃ f, rowEnd - srcIdx = f + 1 := ⟨rowEnd - srcIdx - 1, by omega⟩
    rw [hf, rleRowUF, if_pos hlt, if_pos hlt]
    simp only [rleRowU]
    have hrec := rleRowUF_fuel src rowEnd f (rowEnd - (srcIdx + 3)) (srcIdx + 3)
      (by omega) (by omega)
    simp only [hrec]
  · have h0 : rowEnd - srcIdx = 0 := by omega
    rw [h0, rleRowUF, if_neg hlt]

/-- Uncapped reference row streams for the whole image. -/
def rleLineRowsU (src : List Nat) : Nat → Nat → Nat → List (List Nat)
  | _, _, 0 => []
  | y, srcIdx, rows + 1 =>
    let d := rleRowU src (get_u16 src (2 + y * 2)) srcIdx
    d.1 :: rleLineRowsU src (y + 1) d.2 rows

theorem expandPix_succ (p0 p1 n : Nat) :
    expandPix p0 p1 (n + 1) = p0 :: p1 :: expandPix p0 p1 n := by
  simp [expandPix, List.replicate_succ]

theorem expandPix_length (p0 p1 n : Nat) : (expandPix p0 p1 n).length = 2 * n := by
  induction n with
  | zero => rfl
  | succ n ih => rw [expandPix_succ]; simp [ih]; omega

/-- The capped fill loop writes exactly the first `8192 - bufIdx` bytes of
the full expansion (for the even `bufIdx` values the loop produces). -/
theorem runFill_eq_take (p0 p1 : Nat) :
    ∀ n b, b % 2 = 0 → runFill p0 p1 n b = (expandPix p0 p1 n).take (8192 - b) := by
  intro n
  induction n with
  | zero => intro b hb; simp [runFill, expandPix]
  | succ n ih =>
    intro b hb
    rw [runFill, expandPix_succ]
    by_cases hc : 8192 ≤ b + 1
    · rw [if_pos hc]
      have h0 : 8192 - b = 0 := by omega
      rw [h0, List.take_zero]
    · rw [if_neg hc, ih (b + 2) (by omega)]
      have h2 : 8192 - b = (8192 - (b + 2)) + 1 + 1 := by omega
      rw [h2, List.take_succ_cons, List.take_succ_cons]

/-- `rleRow` produces exactly the first `8192 - bufIdx` bytes of the
uncapped expansion, and consumes the same records. -/
theorem rleRow_take (src : List Nat) (rowEnd : Nat) :
    ∀ f srcIdx b, rowEnd - srcIdx ≤ f → b % 2 = 0 →
    rleRow src rowEnd srcIdx b =
      ((rleRowU src rowEnd srcIdx).1.take (8192 - b), (rleRowU src rowEnd srcIdx).2) := by
  intro f
  induction f with
  | zero =>
    intro srcIdx b hf hb
    rw [rleRow_eq, rleRowU_eq, if_neg (by omega), if_neg (by omega)]
    simp
  | succ f ih =>
    intro srcIdx b hf hb
    rw [rleRow_eq, rleRowU_eq]
    by_cases hlt : srcIdx < rowEnd
    · rw [if_pos hlt, if_pos hlt]
      simp only
      set cnt := getByte src (srcIdx + 2) with hcnt
      set q0 := getByte src (srcIdx + 1) with hq0
      set q1 := getByte src srcIdx with hq1
      have hfill : runFill q0 q1 cnt b = (expandPix q0 q1 cnt).take (8192 - b) :=
        runFill_eq_take q0 q1 cnt b hb
      have hlen : (runFill q0 q1 cnt b).length = min (8192 - b) (2 * cnt) := by
        rw [hfill, List.length_take, expandPix_length]
      have hb2 : (b + (runFill q0 q1 cnt b).length) % 2 = 0 := by
        rw [hlen]; omega
      have hrec := ih (srcIdx + 3) (b + (runFill q0 q1 cnt b).length)
        (by omega) hb2
      rw [hrec, hfill]
      rw [Prod.mk.injEq]
      refine ⟨?_, rfl⟩
      dsimp only
      rw [List.take_append_eq_append_take]
      congr 1
      rw [List.length_take, expandPix_length]
      have harg : 8192 - (b + (8192 - b) ⊓ (2 * cnt)) = 8192 - b - 2 * cnt := by
        rcases Nat.le_total (8192 - b) (2 * cnt) with hmin | hmin
        · rw [Nat.min_eq_left hmin]; omega
        · rw [Nat.min_eq_right hmin]; omega
      rw [harg]
    · rw [if_neg hlt, if_neg hlt]
      simp

theorem padRow_length (n : Nat) (l : List Nat) : (padRow n l).length = n := by
  rw [padRow]
  simp [List.length_take]
  omega

theorem padRow_take8192 (drs : Nat) (l : List Nat) (h : drs ≤ 8192) :
    padRow drs (l.take 8192) = padRow drs l := by
  rw [padRow, padRow, List.take_take]
  have hm : min drs 8192 = drs := by omega
  rw [hm]
  congr 2
  rw [List.length_take]
  omega

/-- The produced rows are the uncapped row expansions, each truncated to the
destination row size and zero-filled, whenever `drs ≤ 8192`. -/
theorem rleLineRows_eq_map (src : List Nat) (drs : Nat) (hdrs : drs ≤ 8192) :
    ∀ rows y srcIdx, rleLineRows src drs y srcIdx rows =
      (rleLineRowsU src y srcIdx rows).map (padRow drs) := by
  intro rows
  induction rows with
  | zero => intro y srcIdx; rfl
  | succ n ih =>
    intro y srcIdx
    rw [rleLineRows, rleLineRowsU]
    simp only [List.map_cons]
    have hrow := rleRow_take src (get_u16 src (2 + y * 2))
      (get_u16 src (2 + y * 2) - srcIdx) srcIdx 0 (by omega) (by omega)
    rw [hrow]
    simp only
    rw [padRow_take8192 drs _ hdrs, ih]

/-- C8: for every source (malformed included), once the decoder is past its
header bounds check it never reports an error: each output row is exactly
`destRowSize` bytes, namely the row's decoded byte stream truncated at the
destination row size and followed by zero fill (writes beyond the row buffer
are silently dropped).  When the bounds check fails the error concerns only
the identifier/offset-table bounds, never the run data. -/
theorem rleLine_truncation (src : List Nat) (h drs : Nat) (hdrs : drs ≤ 8192) :
    (decodeRLELine src h drs = .error 101 ∧
      (src.length < 2 * h + 2 ∨ get_u16 src (2 + (h - 1) * 2) = 0 ∨
        src.length < get_u16 src (2 + (h - 1) * 2) - 1)) ∨
    (decodeRLELine src h drs =
        .ok ((rleLineRowsU src 0 (2 * h + 2) h).map (padRow drs)) ∧
      ∀ row ∈ (rleLineRowsU src 0 (2 * h + 2) h).map (padRow drs),
        row.length = drs) := by
  have hd : decodeRLELine src h drs =
      if src.length < 2 * h + 2 ∨
         src.length < (if get_u16 src (2 + (h - 1) * 2) = 0 then
           18446744073709551615 else get_u16 src (2 + (h - 1) * 2) - 1)
      then .error 101 else .ok (rleLineRows src drs 0 (2 * h + 2) h) := rfl
  rw [hd]
  by_cases hc : src.length < 2 * h + 2 ∨
      src.length < (if get_u16 src (2 + (h - 1) * 2) = 0 then
        18446744073709551615 else get_u16 src (2 + (h - 1) * 2) - 1)
  · left
    rw [if_pos hc]
    refine ⟨rfl, ?_⟩
    by_cases hz : get_u16 src (2 + (h - 1) * 2) = 0
    · exact Or.inr (Or.inl hz)
    · rw [if_neg hz] at hc
      tauto
  · right
    rw [if_neg hc, rleLineRows_eq_map src drs hdrs]
    refine ⟨rfl, ?_⟩
    intro row hrow
    rw [List.mem_map] at hrow
    obtain ⟨bs, _, rfl⟩ := hrow
    exact padRow_length drs bs

/-- Witness for C8: a single-row source whose run produces 6 bytes while the
destination row is only 4 bytes wide decodes without error to exactly the
4-byte truncated row. -/
theorem rleLine_truncation_witness :
    decodeRLELine [8, 33, 8, 0, 9, 9, 3] 1 4 =
      .ok ((rleLineRowsU [8, 33, 8, 0, 9, 9, 3] 0 (2 * 1 + 2) 1).map (padRow 4)) ∧
    decodeRLELine [8, 33, 8, 0, 9, 9, 3] 1 4 = .ok [[9, 9, 9, 9]] :=
  ⟨((rleLine_truncation [8, 33, 8, 0, 9, 9, 3] 1 4 (by decide)).resolve_left
      (by decide)).1,
   by decide⟩

/-! ## Claim C4: RLE_BASIC equals flat-stream semantics -/

/-- Flat reference decode adjusted for a carried run: first use up to
`needed` pixels of the carried `(p0, p1) x cnt`, then continue the flat
stream at `srcIdx`. -/
def flatFrom (src : List Nat) (st : BasicSt) (needed : Nat) : Except Nat (List (Nat × Nat)) :=
  match flatRLE src st.srcIdx (needed - min st.cnt needed) with
  | .error e => .error e
  | .ok rest => .ok (List.replicate (min st.cnt needed) (st.p0, st.p1) ++ rest)

theorem pixRowBytes_replicate (p : Nat × Nat) (n : Nat) :
    pixRowBytes (List.replicate n p) = expandPix p.1 p.2 n := rfl

theorem pixRowBytes_append (a b : List (Nat × Nat)) :
    pixRowBytes (a ++ b) = pixRowBytes a ++ pixRowBytes b := by
  simp [pixRowBytes]

/-- The RLE_BASIC record loop against the flat stream: if it runs out of
source it fails with 102 and so does the flat stream for any larger demand;
if it fills the row, the bytes it wrote are the serialization of the next
`w - pixelCount` flat pixels, and the flat stream continues from the
leftover-carry state the loop hands to the next row. -/
theorem basicRowLoop_flat (src : List Nat) (w : Nat) :
    ∀ f srcIdx p0 p1 cnt i pc, src.length + 1 - srcIdx ≤ f → pc < w →
    (∀ e, basicRowLoop src w ⟨srcIdx, p0, p1, cnt, i, pc⟩ = .error e →
      e = 102 ∧ ∀ m, flatRLE src srcIdx ((w - pc) + m) = .error 102) ∧
    (∀ bs fin, basicRowLoop src w ⟨srcIdx, p0, p1, cnt, i, pc⟩ = .ok (bs, fin) →
      ∃ pix : List (Nat × Nat), pix.length = w - pc ∧ bs = pixRowBytes pix ∧
      ∀ m, flatRLE src srcIdx ((w - pc) + m) =
        match flatFrom src ⟨fin.srcIdx, fin.p0, fin.p1, fin.cnt - fin.i⟩ m with
        | .error e => .error e
        | .ok rest => .ok (pix ++ rest)) := by
  intro f
  induction f with
  | zero =>
    intro srcIdx p0 p1 cnt i pc hf hpc
    constructor
    · intro e herr
      rw [basicRowLoop_eq] at herr
      rw [if_pos (by simpa using hpc), if_neg (by simp only []; omega)] at herr
      refine ⟨by injection herr; omega, ?_⟩
      intro m
      rw [flatRLE_eq, if_neg (by omega), if_neg (by omega)]
    · intro bs fin hok
      rw [basicRowLoop_eq] at hok
      rw [if_pos (by simpa using hpc), if_neg (by simp only []; omega)] at hok
      cases hok
  | succ f ih =>
    intro srcIdx p0 p1 cnt i pc hf hpc
    by_cases hs : srcIdx + 3 ≤ src.length
    · -- a record is read
      set cnt' := getByte src (srcIdx + 2) with hcnt'
      set q0 := getByte src (srcIdx + 1) with hq0
      set q1 := getByte src srcIdx with hq1
      have hstep : basicRowLoop src w ⟨srcIdx, p0, p1, cnt, i, pc⟩ =
          match basicRowLoop src w ⟨srcIdx + 3, q0, q1, cnt', min cnt' (w - pc),
            pc + min cnt' (w - pc)⟩ with
          | .error e => .error e
          | .ok (bs, fin) => .ok (expandPix q0 q1 (min cnt' (w - pc)) ++ bs, fin) := by
        rw [basicRowLoop_eq]
        rw [if_pos (by simpa using hpc), if_pos (by simpa using hs)]
      by_cases hfull : w ≤ pc + cnt'
      · -- final record of the row: it fills the remaining needed pixels
        have hmin : min cnt' (w - pc) = w - pc := by omega
        have hexit : basicRowLoop src w ⟨srcIdx + 3, q0, q1, cnt', w - pc, w⟩ =
            .ok ([], ⟨srcIdx + 3, q0, q1, cnt', w - pc, w⟩) := by
          rw [basicRowLoop_eq, if_neg (by simp only []; omega)]
        rw [hmin] at hstep
        have hpcw : pc + (w - pc) = w := by omega
        rw [hpcw] at hstep
        rw [hexit] at hstep
        constructor
        · intro e herr
          rw [hstep] at herr
          cases herr
        · intro bs fin hok
          rw [hstep] at hok
          injection hok with hok
          injection hok with hbs hfin
          subst hbs; subst hfin
          refine ⟨List.replicate (w - pc) (q0, q1), by simp,
            by simp [pixRowBytes_replicate], ?_⟩
          intro m
          rw [flatRLE_eq, if_neg (by omega), if_pos hs]
          simp only [← hcnt', ← hq0, ← hq1, flatFrom]
          have hminfacts : min cnt' (w - pc + m) = (w - pc) + min (cnt' - (w - pc)) m ∧
              w - pc + m - min cnt' (w - pc + m) = m - min (cnt' - (w - pc)) m := by
            rcases Nat.le_total (cnt' - (w - pc)) m with hc | hc
            · rw [Nat.min_eq_left hc, Nat.min_eq_left (by omega : cnt' ≤ w - pc + m)]
              omega
            · rw [Nat.min_eq_right hc, Nat.min_eq_right (by omega : w - pc + m ≤ cnt')]
              omega
          rw [hminfacts.2, hminfacts.1]
          cases hrest : flatRLE src (srcIdx + 3) (m - min (cnt' - (w - pc)) m) with
          | error e => simp
          | ok rest =>
            simp only []
            rw [List.replicate_add, List.append_assoc]
      · -- record exhausted before the row is full: recurse
        have hmin : min cnt' (w - pc) = cnt' := by omega
        rw [hmin] at hstep
        have hih := ih (srcIdx + 3) q0 q1 cnt' cnt' (pc + cnt') (by omega) (by omega)
        constructor
        · intro e herr
          rw [hstep] at herr
          cases hrec : basicRowLoop src w ⟨srcIdx + 3, q0, q1, cnt', cnt', pc + cnt'⟩ with
          | error e' =>
            rw [hrec] at herr
            injection herr with he
            obtain ⟨he102, hflat⟩ := hih.1 e' hrec
            refine ⟨by omega, ?_⟩
            intro m
            rw [flatRLE_eq, if_neg (by omega), if_pos hs]
            simp only [← hcnt', ← hq0, ← hq1]
            have hm1 : min cnt' (w - pc + m) = cnt' :=
              Nat.min_eq_left (by omega)
            have hm2 : w - pc + m - cnt' = (w - (pc + cnt')) + m := by omega
            rw [hm1, hm2, hflat m]
          | ok v =>
            rw [hrec] at herr
            cases herr
        · intro bs fin hok
          rw [hstep] at hok
          cases hrec : basicRowLoop src w ⟨srcIdx + 3, q0, q1, cnt', cnt', pc + cnt'⟩ with
          | error e' =>
            rw [hrec] at hok
            cases hok
          | ok v =>
            rw [hrec] at hok
            obtain ⟨bs', fin'⟩ := v
            injection hok with hok
            injection hok with hbs hfin
            subst hbs; subst hfin
            obtain ⟨pix', hlen', hbs', hflat'⟩ := hih.2 bs' fin' hrec
            refine ⟨List.replicate cnt' (q0, q1) ++ pix', by simp [hlen']; omega,
              by simp [pixRowBytes_append, pixRowBytes_replicate, hbs'], ?_⟩
            intro m
            rw [flatRLE_eq, if_neg (by omega), if_pos hs]
            simp only [← hcnt', ← hq0, ← hq1]
            have hm1 : min cnt' (w - pc + m) = cnt' :=
              Nat.min_eq_left (by omega)
            have hm2 : w - pc + m - cnt' = (w - (pc + cnt')) + m := by omega
            rw [hm1, hm2, hflat' m]
            cases hff : flatFrom src ⟨fin'.srcIdx, fin'.p0, fin'.p1, fin'.cnt - fin'.i⟩ m with
            | error e => simp
            | ok rest => simp
    · -- no record available: insufficient data
      constructor
      · intro e herr
        rw [basicRowLoop_eq] at herr
        rw [if_pos (by simpa using hpc), if_neg (by simpa using hs)] at herr
        refine ⟨by injection herr; omega, ?_⟩
        intro m
        rw [flatRLE_eq, if_neg (by omega), if_neg hs]
      · intro bs fin hok
        rw [basicRowLoop_eq] at hok
        rw [if_pos (by simpa using hpc), if_neg (by simpa using hs)] at hok
        cases hok

/-- One RLE_BASIC row against the flat stream, including the carried run:
the row consumes exactly `w` flat pixels and hands the leftover of its last
run to the next row. -/
theorem basicRow_flat (src : List Nat) (w : Nat) (st : BasicSt) :
    (∀ e, basicRow src w st = .error e →
      e = 102 ∧ ∀ m, flatFrom src st (w + m) = .error 102) ∧
    (∀ bs st', basicRow src w st = .ok (bs, st') →
      ∃ pix : List (Nat × Nat), pix.length = w ∧ bs = pixRowBytes pix ∧
      ∀ m, flatFrom src st (w + m) =
        match flatFrom src st' m with
        | .error e => .error e
        | .ok rest => .ok (pix ++ rest)) := by
  by_cases hcw : w ≤ st.cnt
  · -- the carried run alone fills the row
    have hmin : min st.cnt w = w := Nat.min_eq_right hcw
    have hexit : basicRowLoop src w ⟨st.srcIdx, st.p0, st.p1, st.cnt, w, w⟩ =
        .ok ([], ⟨st.srcIdx, st.p0, st.p1, st.cnt, w, w⟩) := by
      rw [basicRowLoop_eq, if_neg (by simp only []; omega)]
    have hrow : basicRow src w st =
        .ok (expandPix st.p0 st.p1 w ++ [],
          ⟨st.srcIdx, st.p0, st.p1, st.cnt - w⟩) := by
      rw [basicRow]
      simp only [hmin, hexit]
    constructor
    · intro e herr
      rw [hrow] at herr
      cases herr
    · intro bs st' hok
      rw [hrow] at hok
      injection hok with hok
      injection hok with hbs hst'
      subst hbs; subst hst'
      refine ⟨List.replicate w (st.p0, st.p1), by simp,
        by simp [pixRowBytes_replicate], ?_⟩
      intro m
      rw [flatFrom, flatFrom]
      simp only
      have hminfacts : min st.cnt (w + m) = w + min (st.cnt - w) m ∧
          w + m - min st.cnt (w + m) = m - min (st.cnt - w) m := by
        rcases Nat.le_total (st.cnt - w) m with hc | hc
        · rw [Nat.min_eq_left hc, Nat.min_eq_left (by omega : st.cnt ≤ w + m)]
          omega
        · rw [Nat.min_eq_right hc, Nat.min_eq_right (by omega : w + m ≤ st.cnt)]
          omega
      rw [hminfacts.2, hminfacts.1]
      cases hrest : flatRLE src st.srcIdx (m - min (st.cnt - w) m) with
      | error e => simp
      | ok rest =>
        simp only []
        rw [List.replicate_add, List.append_assoc]
  · -- the carried run is used up and the record loop takes over
    have hmin : min st.cnt w = st.cnt := Nat.min_eq_left (by omega)
    have hl := basicRowLoop_flat src w (src.length + 1 - st.srcIdx)
      st.srcIdx st.p0 st.p1 st.cnt st.cnt st.cnt (by omega) (by omega)
    have hrow : basicRow src w st =
        match basicRowLoop src w ⟨st.srcIdx, st.p0, st.p1, st.cnt, st.cnt, st.cnt⟩ with
        | .error e => .error e
        | .ok (bs, fin) => .ok (expandPix st.p0 st.p1 st.cnt ++ bs,
            ⟨fin.srcIdx, fin.p0, fin.p1, fin.cnt - fin.i⟩) := by
      rw [basicRow]
      simp only [hmin]
    constructor
    · intro e herr
      rw [hrow] at herr
      cases hrec : basicRowLoop src w ⟨st.srcIdx, st.p0, st.p1, st.cnt, st.cnt, st.cnt⟩ with
      | error e' =>
        rw [hrec] at herr
        injection herr with he
        obtain ⟨he102, hflat⟩ := hl.1 e' hrec
        refine ⟨by omega, ?_⟩
        intro m
        rw [flatFrom]
        have hm1 : min st.cnt (w + m) = st.cnt := Nat.min_eq_left (by omega)
        have hm2 : w + m - min st.cnt (w + m) = (w - st.cnt) + m := by
          rw [hm1]; omega
        rw [hm2, hflat m]
      | ok v =>
        rw [hrec] at herr
        cases herr
    · intro bs st' hok
      rw [hrow] at hok
      cases hrec : basicRowLoop src w ⟨st.srcIdx, st.p0, st.p1, st.cnt, st.cnt, st.cnt⟩ with
      | error e' =>
        rw [hrec] at hok
        cases hok
      | ok v =>
        rw [hrec] at hok
        obtain ⟨bs0, fin⟩ := v
        injection hok with hok
        injection hok with hbs hst'
        subst hbs; subst hst'
        obtain ⟨pix0, hlen0, hbs0, hflat0⟩ := hl.2 bs0 fin hrec
        refine ⟨List.replicate st.cnt (st.p0, st.p1) ++ pix0,
          by simp [hlen0]; omega,
          by simp [pixRowBytes_append, pixRowBytes_replicate, hbs0], ?_⟩
        intro m
        rw [flatFrom]
        have hm1 : min st.cnt (w + m) = st.cnt := Nat.min_eq_left (by omega)
        have hm2 : w + m - min st.cnt (w + m) = (w - st.cnt) + m := by
          rw [hm1]; omega
        rw [hm2, hm1, hflat0 m]
        cases hff : flatFrom src ⟨fin.srcIdx, fin.p0, fin.p1, fin.cnt - fin.i⟩ m with
        | error e => simp
        | ok rest => simp

/-- All RLE_BASIC rows against the flat stream. -/
theorem basicRows_flat (src : List Nat) (w drs : Nat) :
    ∀ n st, basicRows src w drs st n =
      match flatFrom src st (n * w) with
      | .error e => .error e
      | .ok pix => .ok ((chunksOf w n pix).map (fun ps => padRow drs (pixRowBytes ps))) := by
  intro n
  induction n with
  | zero =>
    intro st
    have hz : flatFrom src st 0 = .ok [] := by
      rw [flatFrom]
      have h0 : flatRLE src st.srcIdx (0 - min st.cnt 0) = .ok [] := by
        rw [flatRLE_eq, if_pos (by omega)]
      rw [h0]
      simp
    rw [Nat.zero_mul, hz]
    rfl
  | succ n ih =>
    intro st
    have hmul : (n + 1) * w = w + n * w := by ring
    rw [hmul]
    cases hb : basicRow src w st with
    | error e =>
      obtain ⟨he102, hflat⟩ := (basicRow_flat src w st).1 e hb
      have hrows : basicRows src w drs st (n + 1) = .error e := by
        rw [basicRows, hb]
      rw [hrows, hflat (n * w), he102]
    | ok v =>
      obtain ⟨bs, st'⟩ := v
      obtain ⟨pix, hpixlen, hbs, hflat⟩ := (basicRow_flat src w st).2 bs st' hb
      have hrows : basicRows src w drs st (n + 1) =
          match basicRows src w drs st' n with
          | .error e => .error e
          | .ok rest => .ok (padRow drs bs :: rest) := by
        rw [basicRows, hb]
      rw [hrows, ih st', hflat (n * w)]
      cases hff : flatFrom src st' (n * w) with
      | error e => rfl
      | ok rest =>
        simp only [chunksOf]
        have htake : (pix ++ rest).take w = pix := by
          rw [List.take_append_eq_append_take]
          rw [show w - pix.length = 0 by omega, List.take_zero, List.append_nil]
          rw [← hpixlen, List.take_length]
        have hdrop : (pix ++ rest).drop w = rest := by
          rw [← hpixlen, List.drop_left]
        rw [htake, hdrop, hbs]
        rfl

/-- C4: the RLE_BASIC branch decodes a flat record stream with no
row-offset table: it produces exactly `width*height` pixels cut into `h`
rows of `w` (so a run whose count exceeds the pixels remaining in its row
carries over into the next row), it stops exactly when `h*w` pixels have
been produced, and it fails with the insufficient-data error 102 exactly
when the flat stream runs out of source bytes first — `flatRLE` is that
flat-stream semantics by definition. -/
theorem rleBasic_flat_stream (src : List Nat) (w h drs : Nat) :
    decodeRLEBasic src w h drs =
      match flatRLE src 2 (h * w) with
      | .error e => .error e
      | .ok pix => .ok ((chunksOf w h pix).map (fun ps => padRow drs (pixRowBytes ps))) := by
  rw [decodeRLEBasic, basicRows_flat src w drs h ⟨2, 0, 0, 0⟩]
  have hff : flatFrom src ⟨2, 0, 0, 0⟩ (h * w) =
      match flatRLE src 2 (h * w) with
      | .error e => .error e
      | .ok rest => .ok rest := by
    rw [flatFrom]
    simp only [Nat.zero_min, Nat.sub_zero, List.replicate_zero, List.nil_append]
  rw [hff]
  cases flatRLE src 2 (h * w) <;> rfl

/-- Witness for C4 at a concrete stream: two records `(pixel 0x0506) x 3`
and `(pixel 0x0708) x 1` decode a 2x2 image, the first run spanning the row
boundary. -/
theorem rleBasic_flat_stream_witness :
    decodeRLEBasic [0, 0, 6, 5, 3, 8, 7, 1] 2 2 4 =
      (match flatRLE [0, 0, 6, 5, 3, 8, 7, 1] 2 (2 * 2) with
      | .error e => .error e
      | .ok pix => .ok ((chunksOf 2 2 pix).map (fun ps => padRow 4 (pixRowBytes ps)))) ∧
    decodeRLEBasic [0, 0, 6, 5, 3, 8, 7, 1] 2 2 4 = .ok [[5, 6, 5, 6], [5, 6, 7, 8]] :=
  ⟨rleBasic_flat_stream [0, 0, 6, 5, 3, 8, 7, 1] 2 2 4, by decide⟩

/-! ## Blob structure lemmas (compressImg output layout) -/

theorem getByte_cons_zero (a : Nat) (l : List Nat) : getByte (a :: l) 0 = a := rfl

theorem getByte_cons_succ (a : Nat) (l : List Nat) (i : Nat) :
    getByte (a :: l) (i + 1) = getByte l i := rfl

theorem getByte_append_left (a b : List Nat) (i : Nat) (h : i < a.length) :
    getByte (a ++ b) i = getByte a i := by
  rw [getByte, getByte, List.getD_eq_getElem?_getD, List.getD_eq_getElem?_getD,
    List.getElem?_append_left h]

theorem getByte_append_right (a b : List Nat) (i : Nat) :
    getByte (a ++ b) (a.length + i) = getByte b i := by
  rw [getByte, getByte, List.getD_eq_getElem?_getD, List.getD_eq_getElem?_getD,
    List.getElem?_append_right (Nat.le_add_right a.length i), Nat.add_sub_cancel_left]

theorem getByte_append_self (a b : List Nat) : getByte (a ++ b) a.length = getByte b 0 := by
  have h := getByte_append_right a b 0
  rwa [Nat.add_zero] at h

theorem getByte_replicate (n i : Nat) : getByte (List.replicate n 0) i = 0 := by
  rw [getByte, List.getD_eq_getElem?_getD, List.getElem?_replicate]
  split <;> rfl

theorem flatMap_length_sum {α : Type _} (f : α → List Nat) (l : List α) :
    (l.flatMap f).length = (l.map (fun a => (f a).length)).sum := by
  induction l with
  | nil => rfl
  | cons a l ih => simp [List.flatMap_cons, ih]

theorem flatMap_congr_left {α β : Type _} (l : List α) (f g : α → List β)
    (h : ∀ a ∈ l, f a = g a) : l.flatMap f = l.flatMap g := by
  induction l with
  | nil => rfl
  | cons a l ih =>
    rw [List.flatMap_cons, List.flatMap_cons, h a (by simp),
      ih (fun b hb => h b (by simp [hb]))]

theorem recBytes_length (r : Nat × Nat × Nat) : (recBytes r).length = 3 := rfl

theorem flatMap_recBytes_length (rs : List (Nat × Nat × Nat)) :
    (rs.flatMap recBytes).length = 3 * rs.length := by
  induction rs with
  | nil => rfl
  | cons r rs ih =>
    simp only [List.flatMap_cons, List.length_append, ih, List.length_cons, recBytes,
      List.length_nil]
    omega

theorem rowBytes_length (img : Img) (y : Nat) :
    (rowBytes img y).length = 3 * (rowRecords img y).length :=
  flatMap_recBytes_length _

/-- The byte serialization the RLE_LINE decoder produces for a list of stored
pixel byte-pairs: each pixel's two stored bytes are written swapped, which is
the BMP byte order that `dumpBMP16` emits for raw data as well. -/
def swapRowBytes (ps : List (Nat × Nat)) : List Nat :=
  ps.flatMap (fun p => [p.2, p.1])

theorem swapRowBytes_nil : swapRowBytes [] = [] := rfl

theorem swapRowBytes_cons (p : Nat × Nat) (ps : List (Nat × Nat)) :
    swapRowBytes (p :: ps) = p.2 :: p.1 :: swapRowBytes ps := by
  simp [swapRowBytes]

theorem swapRowBytes_append (a b : List (Nat × Nat)) :
    swapRowBytes (a ++ b) = swapRowBytes a ++ swapRowBytes b := by
  simp [swapRowBytes]

theorem swapRowBytes_length (ps : List (Nat × Nat)) :
    (swapRowBytes ps).length = 2 * ps.length := by
  induction ps with
  | nil => rfl
  | cons p ps ih =>
    rw [swapRowBytes_cons]
    simp only [List.length_cons, ih]
    omega

theorem expandPix_eq_swapRowBytes (a b n : Nat) :
    expandPix a b n = swapRowBytes (List.replicate n (b, a)) := by
  induction n with
  | zero => rfl
  | succ n ih =>
    rw [expandPix_succ, List.replicate_succ, swapRowBytes_cons, ih]

theorem flatMap_expandPix_eq (rs : List (Nat × Nat × Nat)) :
    rs.flatMap (fun r => expandPix r.2.1 r.1 r.2.2) = swapRowBytes (expandRecs rs) := by
  induction rs with
  | nil => rfl
  | cons r rs ih =>
    rw [List.flatMap_cons, expandRecs_cons, swapRowBytes_append, ih,
      expandPix_eq_swapRowBytes, expandRec]

theorem u16Bytes_length (v : Nat) : (u16Bytes v).length = 2 := rfl

theorem flatMap_u16_length (vs : List Nat) : (vs.flatMap u16Bytes).length = 2 * vs.length := by
  induction vs with
  | nil => rfl
  | cons v vs ih =>
    simp only [List.flatMap_cons, List.length_append, ih, u16Bytes_length, List.length_cons]
    omega

theorem getByte_flatMap_u16 (vs : List Nat) :
    ∀ y, y < vs.length →
      getByte (vs.flatMap u16Bytes) (2 * y) = vs.getD y 0 % 256 ∧
      getByte (vs.flatMap u16Bytes) (2 * y + 1) = vs.getD y 0 / 256 % 256 := by
  induction vs with
  | nil => intro y hy; simp at hy
  | cons v vs ih =>
    intro y hy
    cases y with
    | zero =>
      rw [List.flatMap_cons]
      constructor
      · rw [show 2 * 0 = 0 from rfl,
          getByte_append_left _ _ 0 (by rw [u16Bytes_length]; omega)]
        rfl
      · rw [show 2 * 0 + 1 = 1 from rfl,
          getByte_append_left _ _ 1 (by rw [u16Bytes_length]; omega)]
        rfl
    | succ y =>
      rw [List.flatMap_cons]
      constructor
      · rw [show 2 * (y + 1) = (u16Bytes v).length + 2 * y from by
          rw [u16Bytes_length]; omega, getByte_append_right]
        simpa using (ih y (by simpa using hy)).1
      · rw [show 2 * (y + 1) + 1 = (u16Bytes v).length + (2 * y + 1) from by
          rw [u16Bytes_length]; omega, getByte_append_right]
        simpa using (ih y (by simpa using hy)).2

theorem get_u16_flatMap_u16 (vs : List Nat) (y : Nat) (hy : y < vs.length) :
    get_u16 (vs.flatMap u16Bytes) (2 * y) = vs.getD y 0 % 65536 := by
  obtain ⟨h0, h1⟩ := getByte_flatMap_u16 vs y hy
  rw [get_u16, h0, h1]
  omega

theorem getD_map_range {α : Type _} (f : Nat → α) (d : α) (n y : Nat) (hy : y < n) :
    ((List.range n).map f).getD y d = f y := by
  rw [List.getD_eq_getElem?_getD]
  simp [List.getElem?_range hy]

theorem offsetTable_eq (img : Img) :
    offsetTable img = ((List.range img.h).map (rowEndOffset img)).flatMap u16Bytes := by
  rw [offsetTable, List.flatMap_map]

theorem offsetTable_length (img : Img) : (offsetTable img).length = 2 * img.h := by
  rw [offsetTable_eq, flatMap_u16_length]
  simp

theorem offsetTable_get (img : Img) (y : Nat) (hy : y < img.h) :
    get_u16 (offsetTable img) (2 * y) = rowEndOffset img y % 65536 := by
  rw [offsetTable_eq, get_u16_flatMap_u16 _ y (by simpa using hy),
    getD_map_range _ 0 img.h y hy]

theorem blob_table_get (img : Img) (y : Nat) (hy : y < img.h) :
    get_u16 (blobBytes img) (2 + 2 * y) = rowEndOffset img y % 65536 := by
  have h0 : getByte (blobBytes img) (2 + 2 * y) = getByte (offsetTable img) (2 * y) := by
    rw [blobBytes, show 2 + 2 * y = 2 * y + 1 + 1 from by omega, getByte_cons_succ,
      getByte_cons_succ, getByte_append_left _ _ _ (by rw [offsetTable_length]; omega)]
  have h1 : getByte (blobBytes img) (2 + 2 * y + 1) = getByte (offsetTable img) (2 * y + 1) := by
    rw [blobBytes, show 2 + 2 * y + 1 = 2 * y + 1 + 1 + 1 from by omega, getByte_cons_succ,
      getByte_cons_succ, getByte_append_left _ _ _ (by rw [offsetTable_length]; omega)]
  have ht := offsetTable_get img y hy
  rw [get_u16] at ht ⊢
  rw [h0, h1]
  exact ht

/-- Byte offset in the blob where row `y`'s run data starts: the value of
`offset` as `compressImg` enters row `y`. -/
def rowStart (img : Img) (y : Nat) : Nat :=
  2 + 2 * img.h + ((List.range y).map (fun i => (rowBytes img i).length)).sum

theorem rowStart_zero (img : Img) : rowStart img 0 = 2 + 2 * img.h := by
  simp [rowStart]

theorem rowEndOffset_eq_rowStart (img : Img) (y : Nat) :
    rowEndOffset img y = rowStart img y + (rowBytes img y).length := by
  rw [rowEndOffset, rowStart, List.range_succ, List.map_append, List.sum_append]
  simp only [List.map_cons, List.map_nil, List.sum_cons, List.sum_nil]
  omega

theorem rowStart_succ (img : Img) (y : Nat) :
    rowStart img (y + 1) = rowEndOffset img y := by
  rw [rowEndOffset_eq_rowStart, rowStart, rowStart, List.range_succ, List.map_append,
    List.sum_append]
  simp only [List.map_cons, List.map_nil, List.sum_cons, List.sum_nil]
  omega

theorem rowStart_ge (img : Img) (y : Nat) : 2 + 2 * img.h ≤ rowStart img y := by
  rw [rowStart]
  omega

theorem runData_length (img : Img) :
    (runData img).length = ((List.range img.h).map (fun i => (rowBytes img i).length)).sum := by
  rw [runData, flatMap_length_sum]

theorem blobBytes_length (img : Img) (hh : 1 ≤ img.h) :
    (blobBytes img).length = rowEndOffset img (img.h - 1) := by
  have h1 : img.h - 1 + 1 = img.h := by omega
  rw [blobBytes, rowEndOffset, h1]
  simp only [List.length_cons, List.length_append, offsetTable_length, runData_length]
  omega

theorem range_split (y h : Nat) (hy : y < h) :
    List.range h = List.range y ++ y :: List.range' (y + 1) (h - (y + 1)) := by
  rw [List.range_eq_range', List.range_eq_range']
  have h2 : y :: List.range' (y + 1) (h - (y + 1)) = List.range' y (h - y) := by
    have h3 : h - y = (h - (y + 1)) + 1 := by omega
    rw [h3, List.range'_succ]
  rw [h2]
  nth_rewrite 1 [show h = (h - y) + y from by omega]
  rw [← List.range'_append_1 0 y (h - y)]
  norm_num

theorem blob_decompose (img : Img) (y : Nat) (hy : y < img.h) :
    blobBytes img =
      (0x08 :: 0x21 :: (offsetTable img ++ (List.range y).flatMap (rowBytes img))) ++
        (rowBytes img y ++
          (List.range' (y + 1) (img.h - (y + 1))).flatMap (rowBytes img)) ∧
    (0x08 :: 0x21 :: (offsetTable img ++ (List.range y).flatMap (rowBytes img))).length =
      rowStart img y := by
  constructor
  · rw [blobBytes, runData, range_split y img.h hy, List.flatMap_append, List.flatMap_cons]
    simp [List.append_assoc]
  · simp only [List.length_cons, List.length_append, offsetTable_length, flatMap_length_sum]
    rw [rowStart]
    omega

/-! ## The RLE_LINE decoder consumes exactly the encoder's records -/

/-- Running the uncapped record loop over a serialized record list placed at
`pre.length` with row end right after it expands exactly those records (in
decoder byte order) and stops at the row end. -/
theorem rleRowU_records (src : List Nat) (rs : List (Nat × Nat × Nat)) :
    ∀ (pre post : List Nat), src = pre ++ (rs.flatMap recBytes ++ post) →
    rleRowU src (pre.length + 3 * rs.length) pre.length =
      (swapRowBytes (expandRecs rs), pre.length + 3 * rs.length) := by
  induction rs with
  | nil =>
    intro pre post hsrc
    rw [rleRowU_eq, if_neg (by simp)]
    simp [expandRecs_nil, swapRowBytes_nil]
  | cons r rs ih =>
    intro pre post hsrc
    have hsrc2 : src = pre ++ (recBytes r ++ (rs.flatMap recBytes ++ post)) := by
      rw [hsrc, List.flatMap_cons]
      simp [List.append_assoc]
    have hsrc' : src = (pre ++ recBytes r) ++ (rs.flatMap recBytes ++ post) := by
      rw [hsrc2, List.append_assoc]
    have hpl : (pre ++ recBytes r).length = pre.length + 3 := by
      simp [recBytes]
    have h0 : getByte src pre.length = r.1 := by
      rw [hsrc2, getByte_append_self]
      rfl
    have h1 : getByte src (pre.length + 1) = r.2.1 := by
      rw [hsrc2, getByte_append_right]
      rfl
    have h2 : getByte src (pre.length + 2) = r.2.2 := by
      rw [hsrc2, getByte_append_right]
      rfl
    have harg : pre.length + 3 * (r :: rs).length = pre.length + 3 + 3 * rs.length := by
      simp only [List.length_cons]
      omega
    rw [harg, rleRowU_eq, if_pos (by omega)]
    have hrec := ih (pre ++ recBytes r) post hsrc'
    rw [hpl] at hrec
    simp only [hrec]
    rw [h0, h1, h2, expandRecs_cons, swapRowBytes_append, expandPix_eq_swapRowBytes, expandRec]

/-- On the blob, decoding row `y`'s records from its start offset yields
exactly the row's pixels in decoder byte order, consuming up to the row end. -/
theorem blob_rleRowU (img : Img) (y : Nat) (hy : y < img.h) :
    rleRowU (blobBytes img) (rowEndOffset img y) (rowStart img y) =
      (swapRowBytes (rowPixels img y), rowEndOffset img y) := by
  obtain ⟨hdec, hlen⟩ := blob_decompose img y hy
  have hr := rleRowU_records (blobBytes img) (rowRecords img y)
    (0x08 :: 0x21 :: (offsetTable img ++ (List.range y).flatMap (rowBytes img)))
    ((List.range' (y + 1) (img.h - (y + 1))).flatMap (rowBytes img))
    (by rw [hdec]; rfl)
  rw [hlen] at hr
  have he : rowStart img y + 3 * (rowRecords img y).length = rowEndOffset img y := by
    rw [rowEndOffset_eq_rowStart, rowBytes_length]
  rw [he] at hr
  rw [hr, show expandRecs (rowRecords img y) = rowPixels img y from encodeRow_expand _]

/-- Decoding all rows of the blob (uncapped reference loop): row `y` starts
exactly at `rowStart img y` and produces the swapped row bytes. -/
theorem blob_rleLineRowsU (img : Img)
    (hbound : ∀ y, y < img.h → rowEndOffset img y ≤ 65535) :
    ∀ k y, y + k = img.h →
    rleLineRowsU (blobBytes img) y (rowStart img y) k =
      (List.range' y k).map (fun i => swapRowBytes (rowPixels img i)) := by
  intro k
  induction k with
  | zero => intro y hy; rfl
  | succ k ih =>
    intro y hy
    have hy' : y < img.h := by omega
    rw [rleLineRowsU]
    have htab : get_u16 (blobBytes img) (2 + y * 2) = rowEndOffset img y := by
      rw [show 2 + y * 2 = 2 + 2 * y from by omega, blob_table_get img y hy',
        Nat.mod_eq_of_lt (by have := hbound y hy'; omega)]
    simp only [htab, blob_rleRowU img y hy']
    rw [show rowEndOffset img y = rowStart img (y + 1) from (rowStart_succ img y).symm,
      ih (y + 1) (by omega), List.range'_succ]
    simp only [List.map_cons]

theorem rowRecords_length_pos (img : Img) (hw : 1 ≤ img.w) (y : Nat) :
    1 ≤ (rowRecords img y).length := by
  cases hrec : rowRecords img y with
  | cons a l => simp
  | nil =>
    exfalso
    have hex : expandRecs (rowRecords img y) = rowPixels img y := encodeRow_expand _
    rw [hrec, expandRecs_nil] at hex
    have hlen : (rowPixels img y).length = img.w := by
      rw [rowPixels]; simp
    rw [← hex] at hlen
    simp at hlen
    omega

/-- On a well-formed blob the RLE_LINE branch's insufficient-data precheck
always passes: the identifier and table fit, and the last row's end offset is
exactly the blob length. -/
theorem decodeRLELine_blob_ok (img : Img) (hw : 1 ≤ img.w) (hh : 1 ≤ img.h)
    (hbound : ∀ y, y < img.h → rowEndOffset img y ≤ 65535) (drs : Nat) :
    decodeRLELine (blobBytes img) img.h drs =
      .ok (rleLineRows (blobBytes img) drs 0 (2 * img.h + 2) img.h) := by
  have hlast : get_u16 (blobBytes img) (2 + (img.h - 1) * 2) =
      rowEndOffset img (img.h - 1) := by
    rw [show 2 + (img.h - 1) * 2 = 2 + 2 * (img.h - 1) from by omega,
      blob_table_get img (img.h - 1) (by omega),
      Nat.mod_eq_of_lt (by have := hbound (img.h - 1) (by omega); omega)]
  have hblen := blobBytes_length img hh
  have hrec3 : 3 ≤ (rowBytes img (img.h - 1)).length := by
    rw [rowBytes_length]
    have := rowRecords_length_pos img hw (img.h - 1)
    omega
  have hsum := rowEndOffset_eq_rowStart img (img.h - 1)
  have hstart := rowStart_ge img (img.h - 1)
  have hpos : rowEndOffset img (img.h - 1) ≠ 0 := by omega
  rw [decodeRLELine, hlast, if_neg hpos, if_neg (by rw [hblen]; omega)]

/-- When `compressImg` on an uncompressed image reports compression 1, every
encoder guard passed and the result is the RLE_LINE blob. -/
theorem compressImg_success (img : Img) (hc : img.compression = 0)
    (hcomp : (compressImg img).2.compression = 1) :
    minSizeRLE img ≤ 65535 ∧
    (∀ y, y < img.h → rowEndOffset img y ≤ 65535) ∧
    (blobBytes img).length < img.size ∧
    compressImg img = (0, ⟨img.w, img.h, 1, (blobBytes img).length, blobBytes img⟩) := by
  by_cases h1 : 65535 < minSizeRLE img
  · exfalso
    rw [compressImg, if_neg (by simp [hc]), if_pos h1] at hcomp
    simp [hc] at hcomp
  · by_cases h2 : (List.range img.h).any (fun y => 65535 < rowEndOffset img y)
    · exfalso
      rw [compressImg, if_neg (by simp [hc]), if_neg h1, if_pos h2] at hcomp
      simp [hc] at hcomp
    · by_cases h3 : img.size ≤ (blobBytes img).length
      · exfalso
        rw [compressImg, if_neg (by simp [hc]), if_neg h1, if_neg h2, if_pos h3] at hcomp
        simp [hc] at hcomp
      · refine ⟨by omega, ?_, by omega, ?_⟩
        · intro y hy
          by_contra hcon
          apply h2
          rw [List.any_eq_true]
          refine ⟨y, List.mem_range.mpr hy, ?_⟩
          simpa using by omega
        · rw [compressImg, if_neg (by simp [hc]), if_neg h1, if_neg h2, if_neg h3]

/-! ## destRowSize arithmetic under the encoder's 16-bit size guard -/

theorem land_FFFFFFFC (x : Nat) : x &&& 0xFFFFFFFC = x / 4 % 1073741824 * 4 := by
  have h := land_mask x 2 30
  simp only [Nat.shiftLeft_eq, Nat.shiftRight_eq_div_pow] at h
  norm_num at h
  exact h

theorem destRowSize_eq (w h : Nat) (hh : 1 ≤ h) (hb : (2 * w + 3) * h < 4294967296) :
    destRowSize w h = (2 * w + 3) / 4 * 4 := by
  have hmul := Nat.le_mul_of_pos_right (2 * w + 3) (show 0 < h by omega)
  have hw3 : 2 * w + 3 < 4294967296 := by
    generalize hB : (2 * w + 3) * h = B at hmul hb
    omega
  have hr : bmpRowSize4 w = (2 * w + 3) / 4 * 4 := by
    rw [bmpRowSize4, Nat.mod_eq_of_lt (show 2 * w < 4294967296 by omega),
      Nat.mod_eq_of_lt (show 2 * w + 3 < 4294967296 from hw3), land_FFFFFFFC,
      Nat.mod_eq_of_lt (show (2 * w + 3) / 4 < 1073741824 by omega)]
  rw [destRowSize, imageDataSize16, hr,
    Nat.mod_eq_of_lt (show (2 * w + 3) / 4 * 4 * h < 4294967296 by
      have h1 : (2 * w + 3) / 4 * 4 ≤ 2 * w + 3 := Nat.div_mul_le_self _ _
      have h2 := Nat.mul_le_mul h1 (Nat.le_refl h)
      generalize hA : (2 * w + 3) / 4 * 4 * h = A at h2 ⊢
      generalize hB : (2 * w + 3) * h = B at h2 hb
      omega),
    Nat.mul_div_cancel _ (show 0 < h by omega)]

/-- The encoder's `minSize <= 65535` guard bounds the whole raw image, so the
u32 row-size arithmetic of the BMP header cannot overflow. -/
theorem sizes_bound (w h : Nat) (hw : 1 ≤ w) (hh : 1 ≤ h)
    (hmin : 2 + h * 2 + (w + 255) / 255 * 3 * h ≤ 65535) :
    (2 * w + 3) * h < 4294967296 := by
  have hq1 : 1 ≤ (w + 255) / 255 := by omega
  have hwq : w + 1 ≤ 255 * ((w + 255) / 255) := by omega
  have hrw : (w + 255) / 255 * 3 * h = 3 * ((w + 255) / 255 * h) := by ring
  rw [hrw] at hmin
  have hqhh : h ≤ (w + 255) / 255 * h := Nat.le_mul_of_pos_left h (by omega)
  have hfin : (2 * w + 3) * h ≤ 510 * ((w + 255) / 255 * h) + h := by
    have h1 : 2 * w + 3 ≤ 510 * ((w + 255) / 255) + 1 := by omega
    calc (2 * w + 3) * h ≤ (510 * ((w + 255) / 255) + 1) * h :=
          Nat.mul_le_mul h1 (Nat.le_refl h)
      _ = 510 * ((w + 255) / 255 * h) + h := by ring
  generalize hA : (w + 255) / 255 * h = A at hmin hqhh hfin
  generalize hB : (2 * w + 3) * h = B at hfin ⊢
  omega

/-- The raw-branch output row equals the swapped serialization of the row's
stored pixel pairs (for in-range byte data). -/
theorem rawRow_eq_swap (img : Img) (hdl : img.data.length = img.w * img.h * 2)
    (hbytes : ∀ b ∈ img.data, b < 256) (y : Nat) (hy : y < img.h) :
    rawRow img.data img.w (y * (img.w * 2)) = swapRowBytes (rowPixels img y) := by
  rw [rawRow, rowPixels, swapRowBytes, List.flatMap_map]
  apply flatMap_congr_left
  intro x hx
  have hxw : x < img.w := List.mem_range.mp hx
  dsimp only
  rw [show y * (img.w * 2) + 2 * x = y * img.w * 2 + x * 2 from by ring]
  have hib : y * img.w * 2 + x * 2 + 1 < img.data.length := by
    rw [hdl]
    have h2 : y * img.w + img.w ≤ img.w * img.h := by
      calc y * img.w + img.w = (y + 1) * img.w := by ring
        _ ≤ img.h * img.w := Nat.mul_le_mul (by omega) (Nat.le_refl _)
        _ = img.w * img.h := Nat.mul_comm _ _
    generalize hA : y * img.w = A at h2 ⊢
    generalize hB : img.w * img.h = B at h2 ⊢
    omega
  have hb0 : getByte img.data (y * img.w * 2 + x * 2) < 256 := by
    rw [getByte, List.getD_eq_getElem _ _ (by omega)]
    exact hbytes _ (List.getElem_mem _)
  have hb1 : getByte img.data (y * img.w * 2 + x * 2 + 1) < 256 := by
    rw [getByte, List.getD_eq_getElem _ _ (by omega)]
    exact hbytes _ (List.getElem_mem _)
  rw [get_u16, show swap_bo_u16 (getByte img.data (y * img.w * 2 + x * 2) +
      256 * getByte img.data (y * img.w * 2 + x * 2 + 1)) =
      getByte img.data (y * img.w * 2 + x * 2) * 256 +
        getByte img.data (y * img.w * 2 + x * 2 + 1) from by rw [swap_bo_eq]; omega,
    land_255, Nat.shiftRight_eq_div_pow, pixelPair]
  norm_num
  omega

/-! ## Claim C1: RLE_LINE encode/decode round trip -/

/-- A 4097-pixel-wide all-zero image: it compresses fine (55-byte blob), but
its BMP destination row size is 8196 > 8192. -/
def c1big : Img := ⟨4097, 1, 0, 8194, List.replicate 8194 0⟩

theorem c1big_rowPixels : rowPixels c1big 0 = List.replicate 4097 (0, 0) := by
  rw [rowPixels]
  have h1 : ∀ x ∈ List.range c1big.w, pixelPair c1big 0 x = (0, 0) := by
    intro x hx
    rw [pixelPair, show c1big.data = List.replicate 8194 0 from rfl,
      getByte_replicate, getByte_replicate]
  rw [List.map_congr_left h1, List.map_const', List.length_range,
    show c1big.w = 4097 from rfl]

theorem c1big_records : rowRecords c1big 0 =
    List.replicate 16 (0, 0, 255) ++ [(0, 0, 17)] := by
  rw [rowRecords, c1big_rowPixels, encodeRow_const 4097 (0, 0) (by omega)]
  norm_num

theorem c1big_rowBytes_len : (rowBytes c1big 0).length = 51 := by
  rw [rowBytes_length, c1big_records]
  simp

theorem c1big_rowEnd : rowEndOffset c1big 0 = 55 := by
  rw [rowEndOffset, show List.range (0 + 1) = [0] from rfl, List.map_cons, List.map_nil,
    List.sum_cons, List.sum_nil, c1big_rowBytes_len, show c1big.h = 1 from rfl]
  rfl

theorem c1big_blob_len : (blobBytes c1big).length = 55 := by
  rw [blobBytes_length c1big (by decide)]
  exact c1big_rowEnd

theorem c1big_compress :
    compressImg c1big = (0, ⟨4097, 1, 1, 55, blobBytes c1big⟩) := by
  have hany : ¬((List.range c1big.h).any (fun y => 65535 < rowEndOffset c1big y) = true) := by
    rw [show List.range c1big.h = [0] from rfl, List.any_cons, List.any_nil, c1big_rowEnd]
    decide
  rw [compressImg, if_neg (by decide), if_neg (by decide), if_neg hany,
    if_neg (by rw [c1big_blob_len]; decide), c1big_blob_len]
  rfl

set_option maxRecDepth 4096 in
/-- C1: the claim is false as stated: for the 4097-wide all-zero one-row
image `c1big` the encoder succeeds and installs the RLE_LINE blob, but the
decoder's BMP destination row size is 8196, which exceeds its 8192-byte row
buffer, so `dumpBMP16` fails with error 3 instead of reproducing the pixels. -/
theorem rleLine_roundtrip_counterexample :
    (compressImg c1big).1 = 0 ∧ (compressImg c1big).2.compression = 1 ∧
    dumpBMP16 (compressImg c1big).2.data c1big.w c1big.h false = .error 3 := by
  have hdata : (compressImg c1big).2.data = blobBytes c1big := by rw [c1big_compress]
  refine ⟨by rw [c1big_compress], by rw [c1big_compress], ?_⟩
  rw [hdata, dumpBMP16, if_neg (by rw [c1big_blob_len]; decide), if_pos (by decide)]

/-- C1 (amended): for an uncompressed image with `1 ≤ w ≤ 4096` and `1 ≤ h`
(so the BMP destination row size fits the decoder's 8192-byte row buffer),
whenever `compressImg` succeeds and installs the RLE_LINE blob, decoding the
blob with the RLE_LINE branch of `dumpBMP16` produces exactly what dumping
the original raw pixel data produces: every pixel is reproduced (in the BMP
byte order both branches emit), rows zero-padded to the BMP row size. -/
theorem rleLine_roundtrip (img : Img) (hc : img.compression = 0)
    (hw : 1 ≤ img.w) (hh : 1 ≤ img.h) (hw4096 : img.w ≤ 4096)
    (hdl : img.data.length = img.w * img.h * 2)
    (hbytes : ∀ b ∈ img.data, b < 256)
    (hcomp : (compressImg img).2.compression = 1) :
    dumpBMP16 (compressImg img).2.data img.w img.h false =
      decodeRaw img.data img.w img.h (destRowSize img.w img.h) := by
  obtain ⟨hmin, hbound, hlt, hres⟩ := compressImg_success img hc hcomp
  have hb32 : (2 * img.w + 3) * img.h < 4294967296 := by
    apply sizes_bound img.w img.h hw hh
    rw [minSizeRLE] at hmin
    exact hmin
  have hdrs_eq := destRowSize_eq img.w img.h hh hb32
  have hdrs_le : destRowSize img.w img.h ≤ 8192 := by rw [hdrs_eq]; omega
  have hdata : (compressImg img).2.data = blobBytes img := by rw [hres]
  rw [hdata, dumpBMP16,
    if_neg (by
      rw [blobBytes_length img hh, rowEndOffset_eq_rowStart]
      have := rowStart_ge img (img.h - 1)
      omega),
    if_neg (by omega),
    if_pos (show get_u16 (blobBytes img) 0 = 0x2108 ∧ false = false from ⟨rfl, rfl⟩),
    decodeRLELine_blob_ok img hw hh hbound,
    rleLineRows_eq_map _ _ hdrs_le,
    show 2 * img.h + 2 = rowStart img 0 from by rw [rowStart_zero]; omega,
    blob_rleLineRowsU img hbound img.h 0 (by omega),
    decodeRaw, if_neg (by rw [hdl, Nat.mul_comm img.h img.w]; omega),
    ← List.range_eq_range', List.map_map]
  congr 1
  apply List.map_congr_left
  intro y hymem
  simp only [Function.comp]
  rw [rawRow_eq_swap img hdl hbytes y (List.mem_range.mp hymem)]

/-- An 8x1 image of one repeated pixel, for the C1 witness. -/
def rt8img : Img := ⟨8, 1, 0, 16, List.replicate 16 5⟩

set_option maxRecDepth 8192 in
/-- Witness for C1 (amended) at `rt8img`: the encoder installs the blob
`[8, 33, 7, 0, 5, 5, 8]` and decoding it reproduces the 8 pixels. -/
theorem rleLine_roundtrip_witness :
    (compressImg rt8img).2.compression = 1 ∧
    dumpBMP16 (compressImg rt8img).2.data rt8img.w rt8img.h false =
      decodeRaw rt8img.data rt8img.w rt8img.h (destRowSize rt8img.w rt8img.h) ∧
    dumpBMP16 (compressImg rt8img).2.data rt8img.w rt8img.h false =
      .ok [[5, 5, 5, 5, 5, 5, 5, 5, 5, 5, 5, 5, 5, 5, 5, 5]] :=
  ⟨by decide, rleLine_roundtrip rt8img rfl (by decide) (by decide) (by decide)
    (by decide) (by decide) (by decide), by decide⟩

/-! ## Claim C10: well-formedness of the produced blob -/

theorem encodeRow_zero_after255 (row : List (Nat × Nat)) :
    List.Chain' (fun a b : Nat × Nat × Nat => b.2.2 = 0 → a.2.2 = 255) (encodeRow row) := by
  cases row with
  | nil => exact List.chain'_nil
  | cons c rest => exact (encodeRowLoop_zero_chain rest c 1).1

theorem encodeRow_head_pos (row : List (Nat × Nat)) :
    ∀ r, (encodeRow row).head? = some r → 0 < r.2.2 := by
  cases row with
  | nil => intro r hr; simp [encodeRow] at hr
  | cons c rest => exact (encodeRowLoop_zero_chain rest c 1).2 (by omega)

theorem expandRecs_length_sum (rs : List (Nat × Nat × Nat)) :
    (expandRecs rs).length = (rs.map (fun r => r.2.2)).sum := by
  induction rs with
  | nil => rfl
  | cons r rs ih =>
    rw [expandRecs_cons]
    simp only [List.length_append, ih, expandRec, List.length_replicate, List.map_cons,
      List.sum_cons]

theorem rowRecords_sum (img : Img) (y : Nat) :
    ((rowRecords img y).map (fun r => r.2.2)).sum = img.w := by
  rw [← expandRecs_length_sum,
    show expandRecs (rowRecords img y) = rowPixels img y from encodeRow_expand _,
    rowPixels]
  simp

theorem rowEndOffset_strict (img : Img) (hw : 1 ≤ img.w) (y : Nat) :
    rowEndOffset img y < rowEndOffset img (y + 1) := by
  have h1 := rowEndOffset_eq_rowStart img (y + 1)
  have h2 := rowStart_succ img y
  have h3 : 3 ≤ (rowBytes img (y + 1)).length := by
    rw [rowBytes_length]
    have := rowRecords_length_pos img hw (y + 1)
    omega
  omega

/-- A 256-pixel-wide one-row image: 255 identical pixels then one different
pixel, which makes the encoder flush at run length 255 and then emit a
count-0 record on the pixel change. -/
def c10img : Img := ⟨256, 1, 0, 512, List.replicate 510 1 ++ [2, 2]⟩

theorem getByte_replicate_lt (n i v : Nat) (h : i < n) :
    getByte (List.replicate n v) i = v := by
  rw [getByte, List.getD_eq_getElem?_getD, List.getElem?_replicate_of_lt h]
  rfl

/-- The row loop on `n` more copies of `prev` followed by one different
pixel: full 255-records, then the leftover run (possibly of length 0), then
the changed pixel's opening record. -/
theorem encodeRowLoop_replicate_change (n : Nat) (p q : Nat × Nat) (hq : q ≠ p) :
    ∀ rl, rl ≤ 254 →
    encodeRowLoop (List.replicate n p ++ [q]) p rl =
      List.replicate ((n + rl) / 255) (p.1, p.2, 255) ++
        [(p.1, p.2, (n + rl) % 255), (q.1, q.2, 1)] := by
  induction n with
  | zero =>
    intro rl hrl
    have e1 : (0 + rl) / 255 = 0 := by omega
    have e2 : (0 + rl) % 255 = rl := by omega
    rw [List.replicate_zero, List.nil_append, encodeRowLoop_cons_ne q [] p rl hq,
      encodeRowLoop_nil_pos q 1 (by omega), e1, e2]
    simp
  | succ n ih =>
    intro rl hrl
    rw [List.replicate_succ, List.cons_append]
    by_cases h255 : rl + 1 = 255
    · rw [encodeRowLoop_cons_eq255 _ p rl h255, ih 0 (by omega)]
      have e1 : (n + 0) / 255 + 1 = (n + 1 + rl) / 255 := by omega
      have e2 : (n + 0) % 255 = (n + 1 + rl) % 255 := by omega
      rw [← e1, ← e2, List.replicate_succ]
      simp
    · rw [encodeRowLoop_cons_eq _ p rl h255, ih (rl + 1) (by omega),
        show n + (rl + 1) = n + 1 + rl from by omega]

set_option maxRecDepth 8192 in
theorem c10img_rowPixels :
    rowPixels c10img 0 = List.replicate 255 (1, 1) ++ [(2, 2)] := by
  have h1 : ∀ x ∈ List.range 255, pixelPair c10img 0 x = (1, 1) := by
    intro x hx
    have hx' : x < 255 := List.mem_range.mp hx
    rw [pixelPair, show c10img.data = List.replicate 510 1 ++ [2, 2] from rfl,
      show 0 * c10img.w * 2 + x * 2 = x * 2 from by ring,
      getByte_append_left _ _ _ (by rw [List.length_replicate]; omega),
      getByte_append_left _ _ _ (by rw [List.length_replicate]; omega),
      getByte_replicate_lt _ _ _ (by omega), getByte_replicate_lt _ _ _ (by omega)]
  have h2 : (List.range 255).map (pixelPair c10img 0) = List.replicate 255 (1, 1) := by
    rw [List.map_congr_left h1, List.map_const', List.length_range]
  have h3 : [255].map (pixelPair c10img 0) = [(2, 2)] := by
    rw [List.map_cons, List.map_nil, show pixelPair c10img 0 255 = (2, 2) from by decide]
  rw [rowPixels, show c10img.w = 255 + 1 from rfl, List.range_succ, List.map_append, h2, h3]

theorem c10img_records :
    rowRecords c10img 0 = [(1, 1, 255), (1, 1, 0), (2, 2, 1)] := by
  rw [rowRecords, c10img_rowPixels, show (255 : Nat) = 254 + 1 from rfl,
    List.replicate_succ, List.cons_append, encodeRow,
    encodeRowLoop_replicate_change 254 (1, 1) (2, 2) (by decide) 1 (by omega)]
  norm_num

theorem c10img_rowBytes_len : (rowBytes c10img 0).length = 9 := by
  rw [rowBytes_length, c10img_records]
  simp

theorem c10img_rowEnd : rowEndOffset c10img 0 = 13 := by
  rw [rowEndOffset, show List.range (0 + 1) = [0] from rfl, List.map_cons, List.map_nil,
    List.sum_cons, List.sum_nil, c10img_rowBytes_len, show c10img.h = 1 from rfl]
  rfl

theorem c10img_blob_len : (blobBytes c10img).length = 13 := by
  rw [blobBytes_length c10img (by decide)]
  exact c10img_rowEnd

theorem c10img_compress :
    compressImg c10img = (0, ⟨256, 1, 1, 13, blobBytes c10img⟩) := by
  have hany : ¬((List.range c10img.h).any (fun y => 65535 < rowEndOffset c10img y) = true) := by
    rw [show List.range c10img.h = [0] from rfl, List.any_cons, List.any_nil, c10img_rowEnd]
    decide
  rw [compressImg, if_neg (by decide), if_neg (by decide), if_neg hany,
    if_neg (by rw [c10img_blob_len]; decide), c10img_blob_len]
  rfl

theorem c10img_blob : blobBytes c10img = [8, 33, 13, 0, 1, 1, 255, 1, 1, 0, 2, 2, 1] := by
  rw [blobBytes, offsetTable, runData, show List.range c10img.h = [0] from rfl,
    List.flatMap_cons, List.flatMap_nil, List.append_nil,
    List.flatMap_cons, List.flatMap_nil, List.append_nil,
    c10img_rowEnd, rowBytes, c10img_records]
  rfl

/-- C10: the claim is false as stated: on `c10img` (255 identical pixels
then one different pixel in a single row) the encoder succeeds and installs
a blob containing the record `(1, 1, 0)` (blob bytes 7..9, count byte 0 at
blob index 9), so not every record count is between 1 and 255. -/
theorem compressImg_blob_zero_count_counterexample :
    (compressImg c10img).2.compression = 1 ∧
    rowRecords c10img 0 = [(1, 1, 255), (1, 1, 0), (2, 2, 1)] ∧
    (compressImg c10img).2.data = [8, 33, 13, 0, 1, 1, 255, 1, 1, 0, 2, 2, 1] := by
  refine ⟨by rw [c10img_compress], c10img_records, ?_⟩
  rw [c10img_compress]
  exact c10img_blob

/-- C10 (amended): whenever `compressImg` succeeds and installs the RLE_LINE
blob, the blob starts with `0x08 0x21`, followed by the `2*h`-byte table of
u16 row-end offsets, which are strictly increasing, and then the run data
starting at byte `2 + 2*h`; every record count is at most 255, with count 0
occurring only immediately after a 255-count record and never as a row's
first record; each row's record counts sum to the image width; and the last
row-end offset equals the total blob size. -/
theorem compressImg_blob_wellformed (img : Img) (hc : img.compression = 0)
    (hw : 1 ≤ img.w) (hh : 1 ≤ img.h)
    (hcomp : (compressImg img).2.compression = 1) :
    (compressImg img).2.data = blobBytes img ∧
    getByte (blobBytes img) 0 = 0x08 ∧
    getByte (blobBytes img) 1 = 0x21 ∧
    blobBytes img = 0x08 :: 0x21 :: (offsetTable img ++ runData img) ∧
    (offsetTable img).length = 2 * img.h ∧
    (∀ y, y < img.h → get_u16 (blobBytes img) (2 + 2 * y) = rowEndOffset img y) ∧
    (∀ y, y + 1 < img.h →
      get_u16 (blobBytes img) (2 + 2 * y) < get_u16 (blobBytes img) (2 + 2 * (y + 1))) ∧
    (∀ y, y < img.h → ∀ r ∈ rowRecords img y, r.2.2 ≤ 255) ∧
    (∀ y, y < img.h →
      List.Chain' (fun a b : Nat × Nat × Nat => b.2.2 = 0 → a.2.2 = 255)
        (rowRecords img y)) ∧
    (∀ y, y < img.h → ∀ r, (rowRecords img y).head? = some r → 0 < r.2.2) ∧
    (∀ y, y < img.h → ((rowRecords img y).map (fun r => r.2.2)).sum = img.w) ∧
    get_u16 (blobBytes img) (2 + 2 * (img.h - 1)) = (blobBytes img).length := by
  obtain ⟨hmin, hbound, hlt, hres⟩ := compressImg_success img hc hcomp
  have htab : ∀ y, y < img.h →
      get_u16 (blobBytes img) (2 + 2 * y) = rowEndOffset img y := by
    intro y hy
    rw [blob_table_get img y hy, Nat.mod_eq_of_lt (by have := hbound y hy; omega)]
  refine ⟨by rw [hres], rfl, rfl, rfl, offsetTable_length img, htab, ?_, ?_, ?_, ?_, ?_, ?_⟩
  · intro y hy1
    rw [htab y (by omega), htab (y + 1) hy1]
    exact rowEndOffset_strict img hw y
  · intro y hy
    exact encodeRow_count_le _
  · intro y hy
    exact encodeRow_zero_after255 _
  · intro y hy
    exact encodeRow_head_pos _
  · intro y hy
    exact rowRecords_sum img y
  · rw [htab (img.h - 1) (by omega), blobBytes_length img hh]

/-- An 8x2 two-tone image for the C10 witness: rows encode to `(7,7,8)` and
`(9,9,8)`, row-end offsets 9 and 12, blob length 12. -/
def c10w : Img := ⟨8, 2, 0, 32, List.replicate 16 7 ++ List.replicate 16 9⟩

set_option maxRecDepth 8192 in
/-- Witness for C10 (amended) at `c10w`. -/
theorem compressImg_blob_wellformed_witness :
    (compressImg c10w).2.compression = 1 ∧
    (compressImg c10w).2.data = blobBytes c10w ∧
    get_u16 (blobBytes c10w) (2 + 2 * (c10w.h - 1)) = (blobBytes c10w).length := by
  have h := compressImg_blob_wellformed c10w rfl (by decide) (by decide) (by decide)
  exact ⟨by decide, h.1, h.2.2.2.2.2.2.2.2.2.2.2⟩

end Dawft
